import Mathlib

/-!
# Bounded-buffer producer/consumer (`producer.c`, `consumer.c`)

A shallow embedding of the two programs as an interleaving transition system.

* The shared memory segment is `SharedTable` (`table`, `in`, `out`, `count`), as in the C struct.
  The three `int` fields are integers (so that `count--` could go negative if the protocol
  allowed it) and the array index is `Int.toNat` of a cursor. `%` on C `int` is `Int.tmod`.
  All values stay far below `2^31` (items are at most 2010, counters at most 10), so no
  wrap-around is modelled.
* The three POSIX semaphores `empty`, `full`, `mutex` are natural-number values; `sem_wait`
  is enabled only when the value is positive and decrements it, `sem_post` increments it.
* Each worker thread is a record of its locals (`thread_id`, `i`, `item`) and a program
  position; one transition executes one C statement of one worker. `usleep` only delays a
  thread and is covered by the arbitrary interleaving.
* The two `printf` lines that report a placed / retrieved item are kept as the logs
  `produced` and `consumed`, appended to at the statement that precedes the `printf`.
* `Config` carries what the scenarios vary: the iteration counts, the thread ids and the
  expression that computes `item`; `codeConfig` is what the two programs compile.

The first part of the file holds the definitions, the second part the theorems: an inductive
invariant (`Inv`) of the transition system, and the properties derived from it.
-/

namespace ProducerConsumer

/-- The constant `#define TABLE_SIZE 2` of both programs. -/
def TABLE_SIZE : Nat := 2

/-- The struct `SharedTable` of both programs; the field `in` is spelled `in_`. -/
structure SharedTable where
  table : List Int
  in_ : Int
  out : Int
  count : Int
deriving DecidableEq

/-- Program positions of `producer_thread` (producer.c:45-73). Each names the statement the
worker executes next. -/
inductive PPos where
  | loop        -- line 45/47: test `i < NUM_ITEMS_TO_PRODUCE`, compute `item`
  | waitEmpty   -- line 52: sem_wait(empty)
  | waitMutex   -- line 55: sem_wait(mutex)
  | write       -- line 58: table[in] = item (and the "Placed item" printf)
  | advIn       -- line 61: in = (in + 1) % TABLE_SIZE
  | incCount    -- line 62: count++
  | postMutex   -- line 66: sem_post(mutex)
  | postFull    -- line 69: sem_post(full); then usleep and i++
  | done        -- line 75-76: the loop is over, the thread returns
deriving DecidableEq

/-- Program positions of `consumer_thread` (consumer.c:44-70). -/
inductive CPos where
  | loop        -- line 44: test `i < NUM_ITEMS_TO_CONSUME`
  | waitFull    -- line 48: sem_wait(full)
  | waitMutex   -- line 51: sem_wait(mutex)
  | read        -- line 54: item = table[out] (and the "Retrieved item" printf)
  | clear       -- line 57: table[out] = 0
  | advOut      -- line 58: out = (out + 1) % TABLE_SIZE
  | decCount    -- line 59: count--
  | postMutex   -- line 63: sem_post(mutex)
  | postEmpty   -- line 66: sem_post(empty); then usleep and i++
  | done        -- line 72-73: the loop is over, the thread returns
deriving DecidableEq

/-- The locals of one `producer_thread` and its program position. -/
structure Producer where
  thread_id : Int
  i : Nat
  item : Int
  pc : PPos
deriving DecidableEq

/-- The locals of one `consumer_thread` and its program position. -/
structure Consumer where
  thread_id : Int
  i : Nat
  item : Int
  pc : CPos
deriving DecidableEq

/-- Global state: shared memory, the three semaphore values, the worker threads of both
processes, and the two logs of placed and retrieved items. -/
structure State where
  shared_table : SharedTable
  empty : Nat
  full : Nat
  mutex : Nat
  producers : List Producer
  consumers : List Consumer
  produced : List Int
  consumed : List Int
deriving DecidableEq

/-- What the scenarios vary: the per-worker iteration counts, the thread ids handed to
`pthread_create`, and the expression that computes `item` from `thread_id` and `i`. -/
structure Config where
  NUM_ITEMS_TO_PRODUCE : Nat
  NUM_ITEMS_TO_CONSUME : Nat
  producerIds : List Int
  consumerIds : List Int
  mkItem : Int → Nat → Int

/-- The expression of producer.c:47, `item = (thread_id * 1000) + i + 1`. -/
def producerItem (thread_id : Int) (i : Nat) : Int :=
  (thread_id * 1000) + i + 1

/-- The configuration compiled into the two programs: ten items per worker, producer threads
with ids 1 and 2, consumer threads with ids 1 and 2. -/
def codeConfig : Config where
  NUM_ITEMS_TO_PRODUCE := 10
  NUM_ITEMS_TO_CONSUME := 10
  producerIds := [1, 2]
  consumerIds := [1, 2]
  mkItem := producerItem

/-- One producer thread that places the elements of `items` in order, one consumer thread
that retrieves as many. -/
def singleConfig (items : List Int) : Config where
  NUM_ITEMS_TO_PRODUCE := items.length
  NUM_ITEMS_TO_CONSUME := items.length
  producerIds := [1]
  consumerIds := [1]
  mkItem := fun _ i => items.getD i 0

/-- The state set up by the producer's `main` (producer.c:110-136) with every worker thread at
the head of its loop. -/
def initState (cfg : Config) : State where
  shared_table :=
    { table := List.replicate TABLE_SIZE 0, in_ := 0, out := 0, count := 0 }
  empty := TABLE_SIZE
  full := 0
  mutex := 1
  producers := cfg.producerIds.map fun id => { thread_id := id, i := 0, item := 0, pc := .loop }
  consumers := cfg.consumerIds.map fun id => { thread_id := id, i := 0, item := 0, pc := .loop }
  produced := []
  consumed := []

/-- One statement of `producer_thread`, executed by the thread with locals `p` in state `s`.
Returns the new shared part and the new locals, or `none` when the thread is blocked in
`sem_wait` or has returned. -/
def producerExec (cfg : Config) (s : State) (p : Producer) : Option (State × Producer) :=
  match p.pc with
  | .loop =>
    if p.i < cfg.NUM_ITEMS_TO_PRODUCE then
      some (s, { p with item := cfg.mkItem p.thread_id p.i, pc := .waitEmpty })
    else
      some (s, { p with pc := .done })
  | .waitEmpty =>
    if 0 < s.empty then some ({ s with empty := s.empty - 1 }, { p with pc := .waitMutex })
    else none
  | .waitMutex =>
    if 0 < s.mutex then some ({ s with mutex := s.mutex - 1 }, { p with pc := .write })
    else none
  | .write =>
    some ({ s with
            shared_table :=
              { s.shared_table with
                table := s.shared_table.table.set s.shared_table.in_.toNat p.item }
            produced := s.produced ++ [p.item] },
          { p with pc := .advIn })
  | .advIn =>
    some ({ s with
            shared_table :=
              { s.shared_table with in_ := (s.shared_table.in_ + 1).tmod TABLE_SIZE } },
          { p with pc := .incCount })
  | .incCount =>
    some ({ s with shared_table := { s.shared_table with count := s.shared_table.count + 1 } },
          { p with pc := .postMutex })
  | .postMutex =>
    some ({ s with mutex := s.mutex + 1 }, { p with pc := .postFull })
  | .postFull =>
    some ({ s with full := s.full + 1 }, { p with i := p.i + 1, pc := .loop })
  | .done => none

/-- One statement of `consumer_thread`, executed by the thread with locals `c` in state `s`. -/
def consumerExec (cfg : Config) (s : State) (c : Consumer) : Option (State × Consumer) :=
  match c.pc with
  | .loop =>
    if c.i < cfg.NUM_ITEMS_TO_CONSUME then some (s, { c with pc := .waitFull })
    else some (s, { c with pc := .done })
  | .waitFull =>
    if 0 < s.full then some ({ s with full := s.full - 1 }, { c with pc := .waitMutex })
    else none
  | .waitMutex =>
    if 0 < s.mutex then some ({ s with mutex := s.mutex - 1 }, { c with pc := .read })
    else none
  | .read =>
    let item := s.shared_table.table.getD s.shared_table.out.toNat 0
    some ({ s with consumed := s.consumed ++ [item] }, { c with item := item, pc := .clear })
  | .clear =>
    some ({ s with
            shared_table :=
              { s.shared_table with
                table := s.shared_table.table.set s.shared_table.out.toNat 0 } },
          { c with pc := .advOut })
  | .advOut =>
    some ({ s with
            shared_table :=
              { s.shared_table with out := (s.shared_table.out + 1).tmod TABLE_SIZE } },
          { c with pc := .decCount })
  | .decCount =>
    some ({ s with shared_table := { s.shared_table with count := s.shared_table.count - 1 } },
          { c with pc := .postMutex })
  | .postMutex =>
    some ({ s with mutex := s.mutex + 1 }, { c with pc := .postEmpty })
  | .postEmpty =>
    some ({ s with empty := s.empty + 1 }, { c with i := c.i + 1, pc := .loop })
  | .done => none

/-- Which worker thread takes the next statement: the `k`-th producer or the `k`-th consumer. -/
inductive Worker where
  | producer (k : Nat)
  | consumer (k : Nat)
deriving DecidableEq

/-- One transition of the interleaving model: worker `w` executes its next statement. -/
def step (cfg : Config) (w : Worker) (s : State) : Option State :=
  match w with
  | .producer k =>
    match s.producers[k]? with
    | none => none
    | some p =>
      match producerExec cfg s p with
      | none => none
      | some (s', p') => some { s' with producers := s'.producers.set k p' }
  | .consumer k =>
    match s.consumers[k]? with
    | none => none
    | some c =>
      match consumerExec cfg s c with
      | none => none
      | some (s', c') => some { s' with consumers := s'.consumers.set k c' }

/-- Run a schedule (a list of worker choices) from `s`; `none` if some chosen worker was not
enabled. -/
def run (cfg : Config) : List Worker → State → Option State
  | [], s => some s
  | w :: ws, s =>
    match step cfg w s with
    | none => none
    | some s' => run cfg ws s'

/-- States reachable from the initial state by any interleaving of worker statements. -/
inductive Reachable (cfg : Config) : State → Prop where
  | init : Reachable cfg (initState cfg)
  | step {s s' : State} (w : Worker) : Reachable cfg s → step cfg w s = some s' →
      Reachable cfg s'

/-- The producer is between its `sem_wait(mutex)` and its `sem_post(mutex)`. -/
def Producer.holdsMutex (p : Producer) : Bool :=
  match p.pc with
  | .write | .advIn | .incCount | .postMutex => true
  | _ => false

/-- The consumer is between its `sem_wait(mutex)` and its `sem_post(mutex)`. -/
def Consumer.holdsMutex (c : Consumer) : Bool :=
  match c.pc with
  | .read | .clear | .advOut | .decCount | .postMutex => true
  | _ => false

/-- The producer has completed `sem_wait(empty)` and not yet `sem_post(full)`. -/
def Producer.inFlight (p : Producer) : Bool :=
  match p.pc with
  | .waitMutex | .write | .advIn | .incCount | .postMutex | .postFull => true
  | _ => false

/-- The consumer has completed `sem_wait(full)` and not yet `sem_post(empty)`. -/
def Consumer.inFlight (c : Consumer) : Bool :=
  match c.pc with
  | .waitMutex | .read | .clear | .advOut | .decCount | .postMutex | .postEmpty => true
  | _ => false

/-- Number of workers of either role inside the mutual-exclusion window. -/
def State.holders (s : State) : Nat :=
  s.producers.countP Producer.holdsMutex + s.consumers.countP Consumer.holdsMutex

/-- No worker holds the mutex. -/
def State.mutexFree (s : State) : Prop :=
  (∀ p ∈ s.producers, p.holdsMutex = false) ∧ (∀ c ∈ s.consumers, c.holdsMutex = false)

instance (s : State) : Decidable s.mutexFree := by
  unfold State.mutexFree; infer_instance

/-- Every producer and every consumer thread has returned. -/
def State.allDone (s : State) : Prop :=
  (∀ p ∈ s.producers, p.pc = .done) ∧ (∀ c ∈ s.consumers, c.pc = .done)

instance (s : State) : Decidable s.allDone := by
  unfold State.allDone; infer_instance

/-- Sum of a natural-number weight over a list of workers. -/
def tally {α : Type} (f : α → Nat) (l : List α) : Nat := (l.map f).sum

/-- Number of producer threads at program position `pos`. -/
def State.nP (s : State) (pos : PPos) : Nat :=
  tally (fun p => if p.pc = pos then 1 else 0) s.producers

/-- Number of consumer threads at program position `pos`. -/
def State.nC (s : State) (pos : CPos) : Nat :=
  tally (fun c => if c.pc = pos then 1 else 0) s.consumers

/-- Sum of the loop counters of the producer threads. -/
def State.iP (s : State) : Nat := tally (fun p => p.i) s.producers

/-- Sum of the loop counters of the consumer threads. -/
def State.iC (s : State) : Nat := tally (fun c => c.i) s.consumers

/-- The counting invariant on plain numbers: semaphore values `e f m`, the fields `cnt`, `inx`,
`outx` of the shared table, the lengths `W`, `R` of the two logs, the number of producers
(`cP`) and consumers (`cC`) at each program position, and the sums `iP`, `iC` of the loop
counters. -/
structure NumCore (e f m : Nat) (cnt inx outx : Int) (W R : Nat) (cP : PPos → Nat)
    (cC : CPos → Nat) (iP iC : Nat) : Prop where
  tokens : e + f
      + (cP .waitMutex + cP .write + cP .advIn + cP .incCount + cP .postMutex + cP .postFull)
      + (cC .waitMutex + cC .read + cC .clear + cC .advOut + cC .decCount
          + cC .postMutex + cC .postEmpty) = 2
  lock : m + (cP .write + cP .advIn + cP .incCount + cP .postMutex)
      + (cC .read + cC .clear + cC .advOut + cC .decCount + cC .postMutex) = 1
  count_full : cnt = (f : Int) + cP .postMutex + cP .postFull
      + cC .waitMutex + cC .read + cC .clear + cC .advOut + cC .decCount
  written : W = iP + cP .advIn + cP .incCount + cP .postMutex + cP .postFull
  retrieved : R = iC + cC .clear + cC .advOut + cC .decCount + cC .postMutex + cC .postEmpty
  count_logs : cnt + cP .advIn + cP .incCount + R = (W : Int) + cC .clear + cC .advOut
      + cC .decCount
  in_nonneg : 0 ≤ inx
  in_lt : inx < 2
  in_mod : (inx + cP .advIn) % 2 = (W : Int) % 2
  out_nonneg : 0 ≤ outx
  out_lt : outx < 2
  out_mod : (outx + cC .clear + cC .advOut) % 2 = (R : Int) % 2

/-- The counting invariant of a state. -/
def NumInv (s : State) : Prop :=
  NumCore s.empty s.full s.mutex s.shared_table.count s.shared_table.in_ s.shared_table.out
    s.produced.length s.consumed.length s.nP s.nC s.iP s.iC

/-- The census `c1` arises from `c` when one worker moves from position `a` to position `b`. -/
def Moved {P : Type} [DecidableEq P] (c c1 : P → Nat) (a b : P) : Prop :=
  ∀ pos, c1 pos + (if a = pos then 1 else 0) = c pos + (if b = pos then 1 else 0)

/-- The table contents relative to the two logs. The item written as number `j` (counting from
zero) lives in slot `j % 2` until it is retrieved; `ncl` is the number of consumers that have
read their slot but not yet cleared it. -/
structure BufCore (tbl lp lc : List Int) (ncl : Nat) : Prop where
  len : tbl.length = TABLE_SIZE
  fifo : lc = lp.take lc.length
  filled : ∀ j, lc.length ≤ j + ncl → j < lp.length → tbl[j % 2]? = lp[j]?
  free : ∀ j, lp.length ≤ j → j + ncl < lc.length + 2 → tbl[j % 2]? = some 0

/-- The buffer invariant of a state. -/
def BufInv (s : State) : Prop :=
  BufCore s.shared_table.table s.produced s.consumed (s.nC .clear)

/-- Number of items the producer thread has written into the table so far. -/
def Producer.written (p : Producer) : Nat :=
  match p.pc with
  | .advIn | .incCount | .postMutex | .postFull => p.i + 1
  | _ => p.i

/-- The items the producer thread has written so far, in order. -/
def Producer.emitted (cfg : Config) (p : Producer) : List Int :=
  (List.range p.written).map (cfg.mkItem p.thread_id)

/-- Per-thread invariant of a producer: the loop counter stays within the bound and the local
`item` holds the value computed at the loop head until it is written. -/
structure PInv (cfg : Config) (p : Producer) : Prop where
  i_le : p.i ≤ cfg.NUM_ITEMS_TO_PRODUCE
  i_lt : p.pc ≠ .loop → p.pc ≠ .done → p.i < cfg.NUM_ITEMS_TO_PRODUCE
  i_done : p.pc = .done → p.i = cfg.NUM_ITEMS_TO_PRODUCE
  item_eq : p.pc = .waitEmpty ∨ p.pc = .waitMutex ∨ p.pc = .write →
    p.item = cfg.mkItem p.thread_id p.i

/-- Per-thread invariant of a consumer. -/
structure CInv (cfg : Config) (c : Consumer) : Prop where
  i_le : c.i ≤ cfg.NUM_ITEMS_TO_CONSUME
  i_lt : c.pc ≠ .loop → c.pc ≠ .done → c.i < cfg.NUM_ITEMS_TO_CONSUME
  i_done : c.pc = .done → c.i = cfg.NUM_ITEMS_TO_CONSUME

/-- Sum of a multiset-valued weight over a list of workers. -/
def mtally {α : Type} (f : α → Multiset Int) (l : List α) : Multiset Int := (l.map f).sum

/-- Invariant on the worker lists and the log of placed items: every thread satisfies its
per-thread invariant, the thread ids are those of the configuration, and the placed items are,
as a multiset, what the producer threads have written. -/
structure LogInv (cfg : Config) (s : State) : Prop where
  pinv : ∀ p ∈ s.producers, PInv cfg p
  cinv : ∀ c ∈ s.consumers, CInv cfg c
  pids : s.producers.map (fun p => p.thread_id) = cfg.producerIds
  clen : s.consumers.length = cfg.consumerIds.length
  log : (s.produced : Multiset Int) = mtally (fun p => (p.emitted cfg : Multiset Int)) s.producers

/-- The full inductive invariant. -/
structure Inv (cfg : Config) (s : State) : Prop where
  num : NumInv s
  buf : BufInv s
  log : LogInv cfg s

/-- Every item value the configured producer threads will ever place. -/
def allItems (cfg : Config) : List Int :=
  cfg.producerIds.flatMap fun id => (List.range cfg.NUM_ITEMS_TO_PRODUCE).map (cfg.mkItem id)

/-- The twenty item values of the compiled configuration: `1001..1010` from producer thread 1
and `2001..2010` from producer thread 2. -/
def codeItems : List Int :=
  [1001, 1002, 1003, 1004, 1005, 1006, 1007, 1008, 1009, 1010,
   2001, 2002, 2003, 2004, 2005, 2006, 2007, 2008, 2009, 2010]

/-- The state after producer thread 1 has completed two full iterations and nobody else has
moved: the table is full. -/
def fullState : State where
  shared_table := { table := [1001, 1002], in_ := 0, out := 0, count := 2 }
  empty := 0
  full := 2
  mutex := 1
  producers := [{ thread_id := 1, i := 2, item := 1002, pc := .loop },
                { thread_id := 2, i := 0, item := 0, pc := .loop }]
  consumers := [{ thread_id := 1, i := 0, item := 0, pc := .loop },
                { thread_id := 2, i := 0, item := 0, pc := .loop }]
  produced := [1001, 1002]
  consumed := []

/-- The state in which producer thread 1 holds the mutex and is about to write its first
item. -/
def writeState : State where
  shared_table := { table := [0, 0], in_ := 0, out := 0, count := 0 }
  empty := 1
  full := 0
  mutex := 0
  producers := [{ thread_id := 1, i := 0, item := 1001, pc := .write },
                { thread_id := 2, i := 0, item := 0, pc := .loop }]
  consumers := [{ thread_id := 1, i := 0, item := 0, pc := .loop },
                { thread_id := 2, i := 0, item := 0, pc := .loop }]
  produced := []
  consumed := []

/-- The state in which producer thread 1 has placed item 1001 and consumer thread 1 holds the
mutex and is about to read it. -/
def readState : State where
  shared_table := { table := [1001, 0], in_ := 1, out := 0, count := 1 }
  empty := 1
  full := 0
  mutex := 0
  producers := [{ thread_id := 1, i := 1, item := 1001, pc := .loop },
                { thread_id := 2, i := 0, item := 0, pc := .loop }]
  consumers := [{ thread_id := 1, i := 0, item := 0, pc := .read },
                { thread_id := 2, i := 0, item := 0, pc := .loop }]
  produced := [1001]
  consumed := []

/-- The final state of the scenario "one producer placing 1, 2, 3; one consumer retrieving
three times": both threads have returned. -/
def scenarioFinal : State where
  shared_table := { table := [0, 0], in_ := 1, out := 1, count := 0 }
  empty := 2
  full := 0
  mutex := 1
  producers := [{ thread_id := 1, i := 3, item := 3, pc := .done }]
  consumers := [{ thread_id := 1, i := 3, item := 3, pc := .done }]
  produced := [1, 2, 3]
  consumed := [1, 2, 3]

/-- A complete schedule of the scenario: three rounds of one full produce followed by one full
consume, then the two loop exits. -/
def scenarioSchedule : List Worker :=
  (List.replicate 3
      (List.replicate 8 (Worker.producer 0) ++ List.replicate 9 (Worker.consumer 0))).flatten
    ++ [Worker.producer 0, Worker.consumer 0]

/-- With a single producer thread the log of placed items is, in order, what that thread has
written. -/
def OrderInv (cfg : Config) (s : State) : Prop :=
  ∀ p, s.producers = [p] → s.produced = p.emitted cfg

/-- The final state of the compiled configuration: all four threads have returned. -/
def codeFinal : State where
  shared_table := { table := [0, 0], in_ := 0, out := 0, count := 0 }
  empty := 2
  full := 0
  mutex := 1
  producers := [{ thread_id := 1, i := 10, item := 1010, pc := .done },
                { thread_id := 2, i := 10, item := 2010, pc := .done }]
  consumers := [{ thread_id := 1, i := 10, item := 1010, pc := .done },
                { thread_id := 2, i := 10, item := 2010, pc := .done }]
  produced := codeItems
  consumed := codeItems

/-- A complete schedule of the compiled configuration: producer `k` and consumer `k` alternate
full iterations ten times and leave their loops, first for `k = 0`, then for `k = 1`. -/
def codeSchedule : List Worker :=
  (List.replicate 10
      (List.replicate 8 (Worker.producer 0) ++ List.replicate 9 (Worker.consumer 0))).flatten
    ++ [Worker.producer 0, Worker.consumer 0]
    ++ (List.replicate 10
      (List.replicate 8 (Worker.producer 1) ++ List.replicate 9 (Worker.consumer 1))).flatten
    ++ [Worker.producer 1, Worker.consumer 1]

/-- Number of statements the producer thread still has to execute before it returns. -/
def Producer.remaining (cfg : Config) (p : Producer) : Nat :=
  match p.pc with
  | .loop => 8 * (cfg.NUM_ITEMS_TO_PRODUCE - p.i) + 1
  | .waitEmpty => 8 * (cfg.NUM_ITEMS_TO_PRODUCE - p.i)
  | .waitMutex => 8 * (cfg.NUM_ITEMS_TO_PRODUCE - p.i) - 1
  | .write => 8 * (cfg.NUM_ITEMS_TO_PRODUCE - p.i) - 2
  | .advIn => 8 * (cfg.NUM_ITEMS_TO_PRODUCE - p.i) - 3
  | .incCount => 8 * (cfg.NUM_ITEMS_TO_PRODUCE - p.i) - 4
  | .postMutex => 8 * (cfg.NUM_ITEMS_TO_PRODUCE - p.i) - 5
  | .postFull => 8 * (cfg.NUM_ITEMS_TO_PRODUCE - p.i) - 6
  | .done => 0

/-- Number of statements the consumer thread still has to execute before it returns. -/
def Consumer.remaining (cfg : Config) (c : Consumer) : Nat :=
  match c.pc with
  | .loop => 9 * (cfg.NUM_ITEMS_TO_CONSUME - c.i) + 1
  | .waitFull => 9 * (cfg.NUM_ITEMS_TO_CONSUME - c.i)
  | .waitMutex => 9 * (cfg.NUM_ITEMS_TO_CONSUME - c.i) - 1
  | .read => 9 * (cfg.NUM_ITEMS_TO_CONSUME - c.i) - 2
  | .clear => 9 * (cfg.NUM_ITEMS_TO_CONSUME - c.i) - 3
  | .advOut => 9 * (cfg.NUM_ITEMS_TO_CONSUME - c.i) - 4
  | .decCount => 9 * (cfg.NUM_ITEMS_TO_CONSUME - c.i) - 5
  | .postMutex => 9 * (cfg.NUM_ITEMS_TO_CONSUME - c.i) - 6
  | .postEmpty => 9 * (cfg.NUM_ITEMS_TO_CONSUME - c.i) - 7
  | .done => 0

/-- Number of transitions every execution from `s` still has to make before all threads have
returned. -/
def State.remaining (cfg : Config) (s : State) : Nat :=
  tally (Producer.remaining cfg) s.producers + tally (Consumer.remaining cfg) s.consumers

/-- All workers have completed all iterations: every configured producer thread exists, has
left its loop with `i = NUM_ITEMS_TO_PRODUCE` and has returned, every configured consumer
thread likewise with `i = NUM_ITEMS_TO_CONSUME`, and the two logs hold one entry for every
iteration of every thread. -/
def State.completed (cfg : Config) (s : State) : Prop :=
  (∀ p ∈ s.producers, p.pc = .done ∧ p.i = cfg.NUM_ITEMS_TO_PRODUCE)
    ∧ (∀ c ∈ s.consumers, c.pc = .done ∧ c.i = cfg.NUM_ITEMS_TO_CONSUME)
    ∧ s.producers.length = cfg.producerIds.length
    ∧ s.consumers.length = cfg.consumerIds.length
    ∧ s.produced.length = cfg.NUM_ITEMS_TO_PRODUCE * cfg.producerIds.length
    ∧ s.consumed.length = cfg.NUM_ITEMS_TO_CONSUME * cfg.consumerIds.length

/-! ## Theorems -/

theorem tally_set {α : Type} (f : α → Nat) :
    ∀ (l : List α) (k : Nat) (p q : α), l[k]? = some p →
      tally f (l.set k q) + f p = tally f l + f q
  | [], k, p, q, h => by simp at h
  | x :: l, 0, p, q, h => by
    simp at h; subst h; simp [tally]; omega
  | x :: l, k + 1, p, q, h => by
    simp at h
    have := tally_set f l k p q h
    simp [tally] at *; omega

theorem tally_ge {α : Type} (f : α → Nat) :
    ∀ (l : List α) (k : Nat) (p : α), l[k]? = some p → f p ≤ tally f l
  | [], k, p, h => by simp at h
  | x :: l, 0, p, h => by
    simp at h; subst h; simp [tally]
  | x :: l, k + 1, p, h => by
    simp at h
    have := tally_ge f l k p h
    simp [tally] at *; omega

theorem Moved.expandP {c c1 : PPos → Nat} {a b : PPos} (h : Moved c c1 a b) :
    (c1 .loop + (if a = .loop then 1 else 0) = c .loop + (if b = .loop then 1 else 0))
    ∧ (c1 .waitEmpty + (if a = .waitEmpty then 1 else 0)
        = c .waitEmpty + (if b = .waitEmpty then 1 else 0))
    ∧ (c1 .waitMutex + (if a = .waitMutex then 1 else 0)
        = c .waitMutex + (if b = .waitMutex then 1 else 0))
    ∧ (c1 .write + (if a = .write then 1 else 0) = c .write + (if b = .write then 1 else 0))
    ∧ (c1 .advIn + (if a = .advIn then 1 else 0) = c .advIn + (if b = .advIn then 1 else 0))
    ∧ (c1 .incCount + (if a = .incCount then 1 else 0)
        = c .incCount + (if b = .incCount then 1 else 0))
    ∧ (c1 .postMutex + (if a = .postMutex then 1 else 0)
        = c .postMutex + (if b = .postMutex then 1 else 0))
    ∧ (c1 .postFull + (if a = .postFull then 1 else 0)
        = c .postFull + (if b = .postFull then 1 else 0))
    ∧ (c1 .done + (if a = .done then 1 else 0) = c .done + (if b = .done then 1 else 0)) :=
  ⟨h _, h _, h _, h _, h _, h _, h _, h _, h _⟩

theorem Moved.expandC {c c1 : CPos → Nat} {a b : CPos} (h : Moved c c1 a b) :
    (c1 .loop + (if a = .loop then 1 else 0) = c .loop + (if b = .loop then 1 else 0))
    ∧ (c1 .waitFull + (if a = .waitFull then 1 else 0)
        = c .waitFull + (if b = .waitFull then 1 else 0))
    ∧ (c1 .waitMutex + (if a = .waitMutex then 1 else 0)
        = c .waitMutex + (if b = .waitMutex then 1 else 0))
    ∧ (c1 .read + (if a = .read then 1 else 0) = c .read + (if b = .read then 1 else 0))
    ∧ (c1 .clear + (if a = .clear then 1 else 0) = c .clear + (if b = .clear then 1 else 0))
    ∧ (c1 .advOut + (if a = .advOut then 1 else 0) = c .advOut + (if b = .advOut then 1 else 0))
    ∧ (c1 .decCount + (if a = .decCount then 1 else 0)
        = c .decCount + (if b = .decCount then 1 else 0))
    ∧ (c1 .postMutex + (if a = .postMutex then 1 else 0)
        = c .postMutex + (if b = .postMutex then 1 else 0))
    ∧ (c1 .postEmpty + (if a = .postEmpty then 1 else 0)
        = c .postEmpty + (if b = .postEmpty then 1 else 0))
    ∧ (c1 .done + (if a = .done then 1 else 0) = c .done + (if b = .done then 1 else 0)) :=
  ⟨h _, h _, h _, h _, h _, h _, h _, h _, h _, h _⟩

section Core

variable {e f m : Nat} {cnt inx outx : Int} {W R : Nat} {cP cP1 : PPos → Nat}
  {cC cC1 : CPos → Nat} {iP iC iP1 iC1 : Nat}

/-- Any move of a producer that touches no shared number, no log and no loop counter, between
 positions outside every window. -/
theorem NumCore.p_loop_wait (h : NumCore e f m cnt inx outx W R cP cC iP iC)
    (hm : Moved cP cP1 .loop .waitEmpty) (hi : iP1 = iP) :
    NumCore e f m cnt inx outx W R cP1 cC iP1 iC := by
  obtain ⟨h1, h2, h3, h4, h5, h6, h7, h8, h9⟩ := hm.expandP
  simp at h1 h2 h3 h4 h5 h6 h7 h8 h9
  obtain ⟨a1, a2, a3, a4, a5, a6, a7, a8, a9, a10, a11, a12⟩ := h
  constructor <;> omega

theorem NumCore.p_loop_done (h : NumCore e f m cnt inx outx W R cP cC iP iC)
    (hm : Moved cP cP1 .loop .done) (hi : iP1 = iP) :
    NumCore e f m cnt inx outx W R cP1 cC iP1 iC := by
  obtain ⟨h1, h2, h3, h4, h5, h6, h7, h8, h9⟩ := hm.expandP
  simp at h1 h2 h3 h4 h5 h6 h7 h8 h9
  obtain ⟨a1, a2, a3, a4, a5, a6, a7, a8, a9, a10, a11, a12⟩ := h
  constructor <;> omega

theorem NumCore.p_waitEmpty (h : NumCore e f m cnt inx outx W R cP cC iP iC)
    (hm : Moved cP cP1 .waitEmpty .waitMutex) (hi : iP1 = iP) (he : 0 < e) :
    NumCore (e - 1) f m cnt inx outx W R cP1 cC iP1 iC := by
  obtain ⟨h1, h2, h3, h4, h5, h6, h7, h8, h9⟩ := hm.expandP
  simp at h1 h2 h3 h4 h5 h6 h7 h8 h9
  obtain ⟨a1, a2, a3, a4, a5, a6, a7, a8, a9, a10, a11, a12⟩ := h
  constructor <;> omega

theorem NumCore.p_waitMutex (h : NumCore e f m cnt inx outx W R cP cC iP iC)
    (hm : Moved cP cP1 .waitMutex .write) (hi : iP1 = iP) (he : 0 < m) :
    NumCore e f (m - 1) cnt inx outx W R cP1 cC iP1 iC := by
  obtain ⟨h1, h2, h3, h4, h5, h6, h7, h8, h9⟩ := hm.expandP
  simp at h1 h2 h3 h4 h5 h6 h7 h8 h9
  obtain ⟨a1, a2, a3, a4, a5, a6, a7, a8, a9, a10, a11, a12⟩ := h
  constructor <;> omega

theorem NumCore.p_write (h : NumCore e f m cnt inx outx W R cP cC iP iC)
    (hm : Moved cP cP1 .write .advIn) (hi : iP1 = iP) :
    NumCore e f m cnt inx outx (W + 1) R cP1 cC iP1 iC := by
  obtain ⟨h1, h2, h3, h4, h5, h6, h7, h8, h9⟩ := hm.expandP
  simp at h1 h2 h3 h4 h5 h6 h7 h8 h9
  obtain ⟨a1, a2, a3, a4, a5, a6, a7, a8, a9, a10, a11, a12⟩ := h
  constructor <;> omega

theorem NumCore.p_advIn (h : NumCore e f m cnt inx outx W R cP cC iP iC)
    (hm : Moved cP cP1 .advIn .incCount) (hi : iP1 = iP) :
    NumCore e f m cnt ((inx + 1).tmod TABLE_SIZE) outx W R cP1 cC iP1 iC := by
  obtain ⟨h1, h2, h3, h4, h5, h6, h7, h8, h9⟩ := hm.expandP
  simp at h1 h2 h3 h4 h5 h6 h7 h8 h9
  obtain ⟨a1, a2, a3, a4, a5, a6, a7, a8, a9, a10, a11, a12⟩ := h
  have htm : (inx + 1).tmod TABLE_SIZE = (inx + 1) % 2 :=
    Int.tmod_eq_emod (by omega) (by decide)
  rw [htm]
  constructor <;> omega

theorem NumCore.p_incCount (h : NumCore e f m cnt inx outx W R cP cC iP iC)
    (hm : Moved cP cP1 .incCount .postMutex) (hi : iP1 = iP) :
    NumCore e f m (cnt + 1) inx outx W R cP1 cC iP1 iC := by
  obtain ⟨h1, h2, h3, h4, h5, h6, h7, h8, h9⟩ := hm.expandP
  simp at h1 h2 h3 h4 h5 h6 h7 h8 h9
  obtain ⟨a1, a2, a3, a4, a5, a6, a7, a8, a9, a10, a11, a12⟩ := h
  constructor <;> omega

theorem NumCore.p_postMutex (h : NumCore e f m cnt inx outx W R cP cC iP iC)
    (hm : Moved cP cP1 .postMutex .postFull) (hi : iP1 = iP) :
    NumCore e f (m + 1) cnt inx outx W R cP1 cC iP1 iC := by
  obtain ⟨h1, h2, h3, h4, h5, h6, h7, h8, h9⟩ := hm.expandP
  simp at h1 h2 h3 h4 h5 h6 h7 h8 h9
  obtain ⟨a1, a2, a3, a4, a5, a6, a7, a8, a9, a10, a11, a12⟩ := h
  constructor <;> omega

theorem NumCore.p_postFull (h : NumCore e f m cnt inx outx W R cP cC iP iC)
    (hm : Moved cP cP1 .postFull .loop) (hi : iP1 = iP + 1) :
    NumCore e (f + 1) m cnt inx outx W R cP1 cC iP1 iC := by
  obtain ⟨h1, h2, h3, h4, h5, h6, h7, h8, h9⟩ := hm.expandP
  simp at h1 h2 h3 h4 h5 h6 h7 h8 h9
  obtain ⟨a1, a2, a3, a4, a5, a6, a7, a8, a9, a10, a11, a12⟩ := h
  constructor <;> omega

theorem NumCore.c_loop_wait (h : NumCore e f m cnt inx outx W R cP cC iP iC)
    (hm : Moved cC cC1 .loop .waitFull) (hi : iC1 = iC) :
    NumCore e f m cnt inx outx W R cP cC1 iP iC1 := by
  obtain ⟨h1, h2, h3, h4, h5, h6, h7, h8, h9, h10⟩ := hm.expandC
  simp at h1 h2 h3 h4 h5 h6 h7 h8 h9 h10
  obtain ⟨a1, a2, a3, a4, a5, a6, a7, a8, a9, a10, a11, a12⟩ := h
  constructor <;> omega

theorem NumCore.c_loop_done (h : NumCore e f m cnt inx outx W R cP cC iP iC)
    (hm : Moved cC cC1 .loop .done) (hi : iC1 = iC) :
    NumCore e f m cnt inx outx W R cP cC1 iP iC1 := by
  obtain ⟨h1, h2, h3, h4, h5, h6, h7, h8, h9, h10⟩ := hm.expandC
  simp at h1 h2 h3 h4 h5 h6 h7 h8 h9 h10
  obtain ⟨a1, a2, a3, a4, a5, a6, a7, a8, a9, a10, a11, a12⟩ := h
  constructor <;> omega

theorem NumCore.c_waitFull (h : NumCore e f m cnt inx outx W R cP cC iP iC)
    (hm : Moved cC cC1 .waitFull .waitMutex) (hi : iC1 = iC) (he : 0 < f) :
    NumCore e (f - 1) m cnt inx outx W R cP cC1 iP iC1 := by
  obtain ⟨h1, h2, h3, h4, h5, h6, h7, h8, h9, h10⟩ := hm.expandC
  simp at h1 h2 h3 h4 h5 h6 h7 h8 h9 h10
  obtain ⟨a1, a2, a3, a4, a5, a6, a7, a8, a9, a10, a11, a12⟩ := h
  constructor <;> omega

theorem NumCore.c_waitMutex (h : NumCore e f m cnt inx outx W R cP cC iP iC)
    (hm : Moved cC cC1 .waitMutex .read) (hi : iC1 = iC) (he : 0 < m) :
    NumCore e f (m - 1) cnt inx outx W R cP cC1 iP iC1 := by
  obtain ⟨h1, h2, h3, h4, h5, h6, h7, h8, h9, h10⟩ := hm.expandC
  simp at h1 h2 h3 h4 h5 h6 h7 h8 h9 h10
  obtain ⟨a1, a2, a3, a4, a5, a6, a7, a8, a9, a10, a11, a12⟩ := h
  constructor <;> omega

theorem NumCore.c_read (h : NumCore e f m cnt inx outx W R cP cC iP iC)
    (hm : Moved cC cC1 .read .clear) (hi : iC1 = iC) :
    NumCore e f m cnt inx outx W (R + 1) cP cC1 iP iC1 := by
  obtain ⟨h1, h2, h3, h4, h5, h6, h7, h8, h9, h10⟩ := hm.expandC
  simp at h1 h2 h3 h4 h5 h6 h7 h8 h9 h10
  obtain ⟨a1, a2, a3, a4, a5, a6, a7, a8, a9, a10, a11, a12⟩ := h
  constructor <;> omega

theorem NumCore.c_clear (h : NumCore e f m cnt inx outx W R cP cC iP iC)
    (hm : Moved cC cC1 .clear .advOut) (hi : iC1 = iC) :
    NumCore e f m cnt inx outx W R cP cC1 iP iC1 := by
  obtain ⟨h1, h2, h3, h4, h5, h6, h7, h8, h9, h10⟩ := hm.expandC
  simp at h1 h2 h3 h4 h5 h6 h7 h8 h9 h10
  obtain ⟨a1, a2, a3, a4, a5, a6, a7, a8, a9, a10, a11, a12⟩ := h
  constructor <;> omega

theorem NumCore.c_advOut (h : NumCore e f m cnt inx outx W R cP cC iP iC)
    (hm : Moved cC cC1 .advOut .decCount) (hi : iC1 = iC) :
    NumCore e f m cnt inx ((outx + 1).tmod TABLE_SIZE) W R cP cC1 iP iC1 := by
  obtain ⟨h1, h2, h3, h4, h5, h6, h7, h8, h9, h10⟩ := hm.expandC
  simp at h1 h2 h3 h4 h5 h6 h7 h8 h9 h10
  obtain ⟨a1, a2, a3, a4, a5, a6, a7, a8, a9, a10, a11, a12⟩ := h
  have htm : (outx + 1).tmod TABLE_SIZE = (outx + 1) % 2 :=
    Int.tmod_eq_emod (by omega) (by decide)
  rw [htm]
  constructor <;> omega

theorem NumCore.c_decCount (h : NumCore e f m cnt inx outx W R cP cC iP iC)
    (hm : Moved cC cC1 .decCount .postMutex) (hi : iC1 = iC) :
    NumCore e f m (cnt - 1) inx outx W R cP cC1 iP iC1 := by
  obtain ⟨h1, h2, h3, h4, h5, h6, h7, h8, h9, h10⟩ := hm.expandC
  simp at h1 h2 h3 h4 h5 h6 h7 h8 h9 h10
  obtain ⟨a1, a2, a3, a4, a5, a6, a7, a8, a9, a10, a11, a12⟩ := h
  constructor <;> omega

theorem NumCore.c_postMutex (h : NumCore e f m cnt inx outx W R cP cC iP iC)
    (hm : Moved cC cC1 .postMutex .postEmpty) (hi : iC1 = iC) :
    NumCore e f (m + 1) cnt inx outx W R cP cC1 iP iC1 := by
  obtain ⟨h1, h2, h3, h4, h5, h6, h7, h8, h9, h10⟩ := hm.expandC
  simp at h1 h2 h3 h4 h5 h6 h7 h8 h9 h10
  obtain ⟨a1, a2, a3, a4, a5, a6, a7, a8, a9, a10, a11, a12⟩ := h
  constructor <;> omega

theorem NumCore.c_postEmpty (h : NumCore e f m cnt inx outx W R cP cC iP iC)
    (hm : Moved cC cC1 .postEmpty .loop) (hi : iC1 = iC + 1) :
    NumCore (e + 1) f m cnt inx outx W R cP cC1 iP iC1 := by
  obtain ⟨h1, h2, h3, h4, h5, h6, h7, h8, h9, h10⟩ := hm.expandC
  simp at h1 h2 h3 h4 h5 h6 h7 h8 h9 h10
  obtain ⟨a1, a2, a3, a4, a5, a6, a7, a8, a9, a10, a11, a12⟩ := h
  constructor <;> omega

end Core

theorem State.moved_nP {s s1 : State} {k : Nat} {p q : Producer} {a b : PPos}
    (hk : s.producers[k]? = some p) (hs : s1.producers = s.producers.set k q)
    (ha : p.pc = a) (hb : q.pc = b) : Moved s.nP s1.nP a b := by
  intro pos
  subst ha hb
  simp only [State.nP, hs]
  exact tally_set _ _ k p q hk

theorem State.moved_nC {s s1 : State} {k : Nat} {c d : Consumer} {a b : CPos}
    (hk : s.consumers[k]? = some c) (hs : s1.consumers = s.consumers.set k d)
    (ha : c.pc = a) (hb : d.pc = b) : Moved s.nC s1.nC a b := by
  intro pos
  subst ha hb
  simp only [State.nC, hs]
  exact tally_set _ _ k c d hk

theorem State.iP_set {s s1 : State} {k : Nat} {p q : Producer} (n : Nat)
    (hk : s.producers[k]? = some p) (hs : s1.producers = s.producers.set k q)
    (hi : q.i = p.i + n) : s1.iP = s.iP + n := by
  have := tally_set (fun p : Producer => p.i) _ k p q hk
  simp only [State.iP, hs]
  simp only [hi] at this
  omega

theorem State.iC_set {s s1 : State} {k : Nat} {c d : Consumer} (n : Nat)
    (hk : s.consumers[k]? = some c) (hs : s1.consumers = s.consumers.set k d)
    (hi : d.i = c.i + n) : s1.iC = s.iC + n := by
  have := tally_set (fun c : Consumer => c.i) _ k c d hk
  simp only [State.iC, hs]
  simp only [hi] at this
  omega

theorem producerExec_numInv {cfg : Config} {s s1 : State} {p q : Producer} {k : Nat}
    (hk : s.producers[k]? = some p) (hx : producerExec cfg s p = some (s1, q))
    (h : NumInv s) : NumInv { s1 with producers := s1.producers.set k q } := by
  unfold NumInv at h ⊢
  cases hpc : p.pc <;> simp only [producerExec, hpc] at hx
  case loop =>
    split at hx
    · simp only [Option.some.injEq, Prod.mk.injEq] at hx
      obtain ⟨rfl, rfl⟩ := hx
      exact h.p_loop_wait (State.moved_nP hk rfl hpc rfl) (State.iP_set 0 hk rfl rfl)
    · simp only [Option.some.injEq, Prod.mk.injEq] at hx
      obtain ⟨rfl, rfl⟩ := hx
      exact h.p_loop_done (State.moved_nP hk rfl hpc rfl) (State.iP_set 0 hk rfl rfl)
  case waitEmpty =>
    split at hx
    · rename_i he
      simp only [Option.some.injEq, Prod.mk.injEq] at hx
      obtain ⟨rfl, rfl⟩ := hx
      exact h.p_waitEmpty (State.moved_nP hk rfl hpc rfl) (State.iP_set 0 hk rfl rfl) he
    · simp at hx
  case waitMutex =>
    split at hx
    · rename_i he
      simp only [Option.some.injEq, Prod.mk.injEq] at hx
      obtain ⟨rfl, rfl⟩ := hx
      exact h.p_waitMutex (State.moved_nP hk rfl hpc rfl) (State.iP_set 0 hk rfl rfl) he
    · simp at hx
  case write =>
    simp only [Option.some.injEq, Prod.mk.injEq] at hx
    obtain ⟨rfl, rfl⟩ := hx
    simp only [List.length_append, List.length_singleton]
    exact h.p_write (State.moved_nP hk rfl hpc rfl) (State.iP_set 0 hk rfl rfl)
  case advIn =>
    simp only [Option.some.injEq, Prod.mk.injEq] at hx
    obtain ⟨rfl, rfl⟩ := hx
    exact h.p_advIn (State.moved_nP hk rfl hpc rfl) (State.iP_set 0 hk rfl rfl)
  case incCount =>
    simp only [Option.some.injEq, Prod.mk.injEq] at hx
    obtain ⟨rfl, rfl⟩ := hx
    exact h.p_incCount (State.moved_nP hk rfl hpc rfl) (State.iP_set 0 hk rfl rfl)
  case postMutex =>
    simp only [Option.some.injEq, Prod.mk.injEq] at hx
    obtain ⟨rfl, rfl⟩ := hx
    exact h.p_postMutex (State.moved_nP hk rfl hpc rfl) (State.iP_set 0 hk rfl rfl)
  case postFull =>
    simp only [Option.some.injEq, Prod.mk.injEq] at hx
    obtain ⟨rfl, rfl⟩ := hx
    exact h.p_postFull (State.moved_nP hk rfl hpc rfl) (State.iP_set 1 hk rfl rfl)
  case done => simp at hx

theorem consumerExec_numInv {cfg : Config} {s s1 : State} {c d : Consumer} {k : Nat}
    (hk : s.consumers[k]? = some c) (hx : consumerExec cfg s c = some (s1, d))
    (h : NumInv s) : NumInv { s1 with consumers := s1.consumers.set k d } := by
  unfold NumInv at h ⊢
  cases hpc : c.pc <;> simp only [consumerExec, hpc] at hx
  case loop =>
    split at hx
    · simp only [Option.some.injEq, Prod.mk.injEq] at hx
      obtain ⟨rfl, rfl⟩ := hx
      exact h.c_loop_wait (State.moved_nC hk rfl hpc rfl) (State.iC_set 0 hk rfl rfl)
    · simp only [Option.some.injEq, Prod.mk.injEq] at hx
      obtain ⟨rfl, rfl⟩ := hx
      exact h.c_loop_done (State.moved_nC hk rfl hpc rfl) (State.iC_set 0 hk rfl rfl)
  case waitFull =>
    split at hx
    · rename_i he
      simp only [Option.some.injEq, Prod.mk.injEq] at hx
      obtain ⟨rfl, rfl⟩ := hx
      exact h.c_waitFull (State.moved_nC hk rfl hpc rfl) (State.iC_set 0 hk rfl rfl) he
    · simp at hx
  case waitMutex =>
    split at hx
    · rename_i he
      simp only [Option.some.injEq, Prod.mk.injEq] at hx
      obtain ⟨rfl, rfl⟩ := hx
      exact h.c_waitMutex (State.moved_nC hk rfl hpc rfl) (State.iC_set 0 hk rfl rfl) he
    · simp at hx
  case read =>
    simp only [Option.some.injEq, Prod.mk.injEq] at hx
    obtain ⟨rfl, rfl⟩ := hx
    simp only [List.length_append, List.length_singleton]
    exact h.c_read (State.moved_nC hk rfl hpc rfl) (State.iC_set 0 hk rfl rfl)
  case clear =>
    simp only [Option.some.injEq, Prod.mk.injEq] at hx
    obtain ⟨rfl, rfl⟩ := hx
    exact h.c_clear (State.moved_nC hk rfl hpc rfl) (State.iC_set 0 hk rfl rfl)
  case advOut =>
    simp only [Option.some.injEq, Prod.mk.injEq] at hx
    obtain ⟨rfl, rfl⟩ := hx
    exact h.c_advOut (State.moved_nC hk rfl hpc rfl) (State.iC_set 0 hk rfl rfl)
  case decCount =>
    simp only [Option.some.injEq, Prod.mk.injEq] at hx
    obtain ⟨rfl, rfl⟩ := hx
    exact h.c_decCount (State.moved_nC hk rfl hpc rfl) (State.iC_set 0 hk rfl rfl)
  case postMutex =>
    simp only [Option.some.injEq, Prod.mk.injEq] at hx
    obtain ⟨rfl, rfl⟩ := hx
    exact h.c_postMutex (State.moved_nC hk rfl hpc rfl) (State.iC_set 0 hk rfl rfl)
  case postEmpty =>
    simp only [Option.some.injEq, Prod.mk.injEq] at hx
    obtain ⟨rfl, rfl⟩ := hx
    exact h.c_postEmpty (State.moved_nC hk rfl hpc rfl) (State.iC_set 1 hk rfl rfl)
  case done => simp at hx

theorem BufCore.length_le {tbl lp lc : List Int} {ncl : Nat} (h : BufCore tbl lp lc ncl) :
    lc.length ≤ lp.length := by
  have := congrArg List.length h.fifo
  simp only [List.length_take] at this
  omega

theorem BufCore.write {tbl lp lc : List Int} {ncl : Nat} (h : BufCore tbl lp lc ncl)
    (hcl : ncl = 0) (idx : Nat) (hidx : idx = lp.length % 2) (hlt : lp.length < lc.length + 2)
    (item : Int) : BufCore (tbl.set idx item) (lp ++ [item]) lc ncl := by
  have hle := h.length_le
  have hlen := h.len
  simp only [TABLE_SIZE] at hlen
  subst hcl
  refine ⟨by simpa using h.len, ?_, ?_, ?_⟩
  · rw [List.take_append_of_le_length hle]; exact h.fifo
  · intro j h1 h2
    simp only [List.length_append, List.length_singleton] at h2
    rw [List.getElem?_set]
    by_cases hj : j = lp.length
    · subst hj hidx
      have : lp.length % 2 < tbl.length := by omega
      simp [this]
    · have hne : idx ≠ j % 2 := by omega
      rw [if_neg hne, List.getElem?_append_left (by omega)]
      exact h.filled j h1 (by omega)
  · intro j h1 h2
    simp only [List.length_append, List.length_singleton] at h1
    have hne : idx ≠ j % 2 := by omega
    rw [List.getElem?_set, if_neg hne]
    exact h.free j (by omega) h2

theorem BufCore.read {tbl lp lc : List Int} (h : BufCore tbl lp lc 0)
    (idx : Nat) (hidx : idx = lc.length % 2) (hlt : lc.length < lp.length) :
    BufCore tbl lp (lc ++ [tbl.getD idx 0]) 1 ∧ tbl[idx]? = lp[lc.length]? := by
  have hget : tbl[idx]? = lp[lc.length]? := by
    rw [hidx]; exact h.filled lc.length (by omega) hlt
  refine ⟨⟨h.len, ?_, ?_, ?_⟩, hget⟩
  · simp only [List.length_append, List.length_singleton]
    rw [List.take_succ, ← h.fifo, List.getD_eq_getElem?_getD, hget]
    simp [List.getElem?_eq_getElem hlt]
  · intro j h1 h2
    simp only [List.length_append, List.length_singleton] at h1
    exact h.filled j (by omega) h2
  · intro j h1 h2
    simp only [List.length_append, List.length_singleton] at h2
    exact h.free j h1 (by omega)

theorem BufCore.clear {tbl lp lc : List Int} (h : BufCore tbl lp lc 1)
    (idx : Nat) (hidx : (idx + 1) % 2 = lc.length % 2) (hlt : idx < 2)
    (hle : lp.length ≤ lc.length + 1) : BufCore (tbl.set idx 0) lp lc 0 := by
  have hlen := h.len
  simp only [TABLE_SIZE] at hlen
  refine ⟨by simpa using h.len, h.fifo, ?_, ?_⟩
  · intro j h2 h3
    have hne : idx ≠ j % 2 := by omega
    rw [List.getElem?_set, if_neg hne]
    exact h.filled j (by omega) h3
  · intro j h2 h3
    rw [List.getElem?_set]
    by_cases hj : idx = j % 2
    · have : idx < tbl.length := by omega
      simp [hj, this]
      omega
    · rw [if_neg hj]
      exact h.free j h2 (by omega)

section Facts

variable {e f m : Nat} {cnt inx outx : Int} {W R : Nat} {cP : PPos → Nat}
  {cC : CPos → Nat} {iP iC : Nat}

/-- What the counting invariant gives while some producer stands before its write. -/
theorem NumCore.at_write (h : NumCore e f m cnt inx outx W R cP cC iP iC)
    (hw : 1 ≤ cP .write) :
    cC .clear = 0 ∧ inx.toNat = W % 2 ∧ W < R + 2 ∧ 0 ≤ cnt ∧ cnt < 2 := by
  obtain ⟨a1, a2, a3, a4, a5, a6, a7, a8, a9, a10, a11, a12⟩ := h
  refine ⟨?_, ?_, ?_, ?_, ?_⟩ <;> omega

/-- What the counting invariant gives while some consumer stands before its read. -/
theorem NumCore.at_read (h : NumCore e f m cnt inx outx W R cP cC iP iC)
    (hr : 1 ≤ cC .read) :
    cC .clear = 0 ∧ outx.toNat = R % 2 ∧ R < W ∧ 0 < cnt ∧ cnt ≤ 2 := by
  obtain ⟨a1, a2, a3, a4, a5, a6, a7, a8, a9, a10, a11, a12⟩ := h
  refine ⟨?_, ?_, ?_, ?_, ?_⟩ <;> omega

/-- What the counting invariant gives while some consumer stands before clearing its slot. -/
theorem NumCore.at_clear (h : NumCore e f m cnt inx outx W R cP cC iP iC)
    (hc : 1 ≤ cC .clear) :
    cC .clear = 1 ∧ (outx.toNat + 1) % 2 = R % 2 ∧ outx.toNat < 2 ∧ 1 ≤ R ∧ W ≤ R + 1 := by
  obtain ⟨a1, a2, a3, a4, a5, a6, a7, a8, a9, a10, a11, a12⟩ := h
  refine ⟨?_, ?_, ?_, ?_, ?_⟩ <;> omega

end Facts

theorem State.nP_ge {s : State} {k : Nat} {p : Producer} {a : PPos}
    (hk : s.producers[k]? = some p) (ha : p.pc = a) : 1 ≤ s.nP a := by
  have := tally_ge (fun p : Producer => if p.pc = a then 1 else 0) _ k p hk
  simpa [ha] using this

theorem State.nC_ge {s : State} {k : Nat} {c : Consumer} {a : CPos}
    (hk : s.consumers[k]? = some c) (ha : c.pc = a) : 1 ≤ s.nC a := by
  have := tally_ge (fun c : Consumer => if c.pc = a then 1 else 0) _ k c hk
  simpa [ha] using this

theorem producerExec_bufInv {cfg : Config} {s s1 : State} {p q : Producer} {k : Nat}
    (hk : s.producers[k]? = some p) (hx : producerExec cfg s p = some (s1, q))
    (hn : NumInv s) (h : BufInv s) : BufInv { s1 with producers := s1.producers.set k q } := by
  unfold BufInv at h ⊢
  cases hpc : p.pc <;> simp only [producerExec, hpc] at hx
  case write =>
    simp only [Option.some.injEq, Prod.mk.injEq] at hx
    obtain ⟨rfl, rfl⟩ := hx
    obtain ⟨f1, f2, f3, -, -⟩ := NumCore.at_write hn (State.nP_ge hk hpc)
    exact h.write f1 _ f2 f3 _
  case done => simp at hx
  all_goals (try split at hx)
  all_goals (first | (simp at hx; done) | skip)
  all_goals simp only [Option.some.injEq, Prod.mk.injEq] at hx
  all_goals obtain ⟨rfl, rfl⟩ := hx
  all_goals exact h

theorem BufCore.cast {tbl lp lc : List Int} {n n1 : Nat} (h : BufCore tbl lp lc n)
    (hn : n1 = n) : BufCore tbl lp lc n1 := hn ▸ h

theorem tally_set_same {α : Type} {f : α → Nat} {l : List α} {k : Nat} {p q : α}
    (hk : l[k]? = some p) (hf : f q = f p) : tally f (l.set k q) = tally f l := by
  have := tally_set f l k p q hk
  omega

theorem tally_set_succ {α : Type} {f : α → Nat} {l : List α} {k : Nat} {p q : α}
    (hk : l[k]? = some p) (hf : f q = f p + 1) : tally f (l.set k q) = tally f l + 1 := by
  have := tally_set f l k p q hk
  omega

theorem tally_set_pred {α : Type} {f : α → Nat} {l : List α} {k : Nat} {p q : α}
    (hk : l[k]? = some p) (hf : f q + 1 = f p) : tally f (l.set k q) + 1 = tally f l := by
  have := tally_set f l k p q hk
  omega

theorem consumerExec_bufInv {cfg : Config} {s s1 : State} {c d : Consumer} {k : Nat}
    (hk : s.consumers[k]? = some c) (hx : consumerExec cfg s c = some (s1, d))
    (hn : NumInv s) (h : BufInv s) : BufInv { s1 with consumers := s1.consumers.set k d } := by
  unfold BufInv at h ⊢
  cases hpc : c.pc <;> simp only [consumerExec, hpc] at hx
  case read =>
    simp only [Option.some.injEq, Prod.mk.injEq] at hx
    obtain ⟨rfl, rfl⟩ := hx
    obtain ⟨f1, f2, f3, -, -⟩ := NumCore.at_read hn (State.nC_ge hk hpc)
    rw [f1] at h
    refine (h.read _ f2 f3).1.cast ?_
    have := tally_set_succ (f := fun c : Consumer => if c.pc = CPos.clear then 1 else 0)
      (q := { c with item := s.shared_table.table.getD s.shared_table.out.toNat 0,
                     pc := .clear }) hk (by simp [hpc])
    simp only [State.nC] at f1 ⊢
    omega
  case clear =>
    simp only [Option.some.injEq, Prod.mk.injEq] at hx
    obtain ⟨rfl, rfl⟩ := hx
    obtain ⟨f1, f2, f3, f4, f5⟩ := NumCore.at_clear hn (State.nC_ge hk hpc)
    rw [f1] at h
    refine (h.clear _ f2 f3 f5).cast ?_
    have := tally_set_pred (f := fun c : Consumer => if c.pc = CPos.clear then 1 else 0)
      (q := { c with pc := .advOut }) hk (by simp [hpc])
    simp only [State.nC] at f1 ⊢
    omega
  case done => simp at hx
  all_goals (try split at hx)
  all_goals (first | (simp at hx; done) | skip)
  all_goals simp only [Option.some.injEq, Prod.mk.injEq] at hx
  all_goals obtain ⟨rfl, rfl⟩ := hx
  all_goals refine h.cast ?_
  all_goals exact tally_set_same hk (by simp [hpc])

theorem mtally_set {α : Type} (f : α → Multiset Int) :
    ∀ (l : List α) (k : Nat) (p q : α), l[k]? = some p →
      mtally f (l.set k q) + f p = mtally f l + f q
  | [], k, p, q, h => by simp at h
  | x :: l, 0, p, q, h => by
    simp at h; subst h; simp [mtally]; abel
  | x :: l, k + 1, p, q, h => by
    simp at h
    have := mtally_set f l k p q h
    simp only [mtally, List.set_cons_succ, List.map_cons, List.sum_cons] at *
    rw [add_assoc, this, add_assoc]

theorem map_set_same {α β : Type} (f : α → β) :
    ∀ (l : List α) (k : Nat) (p q : α), l[k]? = some p → f q = f p →
      (l.set k q).map f = l.map f
  | [], k, p, q, h, _ => by simp at h
  | x :: l, 0, p, q, h, hf => by
    simp at h; subst h; simp [hf]
  | x :: l, k + 1, p, q, h, hf => by
    simp at h
    simp [map_set_same f l k p q h hf]

theorem forall_mem_set {α : Type} {P : α → Prop} {l : List α} {k : Nat} {q : α}
    (h : ∀ x ∈ l, P x) (hq : P q) : ∀ x ∈ l.set k q, P x := by
  intro x hx
  rcases List.mem_or_eq_of_mem_set hx with h1 | h1
  · exact h x h1
  · exact h1 ▸ hq

theorem producerExec_pinv {cfg : Config} {s s1 : State} {p q : Producer}
    (hx : producerExec cfg s p = some (s1, q)) (hp : PInv cfg p) :
    PInv cfg q ∧ q.thread_id = p.thread_id := by
  obtain ⟨a1, a2, a3, a4⟩ := hp
  cases hpc : p.pc <;> simp only [producerExec, hpc] at hx
  all_goals (try split at hx)
  all_goals (first | (simp at hx; done) | skip)
  all_goals simp only [Option.some.injEq, Prod.mk.injEq] at hx
  all_goals obtain ⟨rfl, rfl⟩ := hx
  all_goals simp only [hpc] at a2 a3 a4
  all_goals refine ⟨⟨?_, ?_, ?_, ?_⟩, rfl⟩
  all_goals simp at a2 a3 a4 ⊢
  all_goals omega

theorem consumerExec_cinv {cfg : Config} {s s1 : State} {c d : Consumer}
    (hx : consumerExec cfg s c = some (s1, d)) (hc : CInv cfg c) : CInv cfg d := by
  obtain ⟨a1, a2, a3⟩ := hc
  cases hpc : c.pc <;> simp only [consumerExec, hpc] at hx
  all_goals (try split at hx)
  all_goals (first | (simp at hx; done) | skip)
  all_goals simp only [Option.some.injEq, Prod.mk.injEq] at hx
  all_goals obtain ⟨rfl, rfl⟩ := hx
  all_goals simp only [hpc] at a2 a3
  all_goals refine ⟨?_, ?_, ?_⟩
  all_goals simp at a2 a3 ⊢
  all_goals omega

theorem producerExec_log {cfg : Config} {s s1 : State} {p q : Producer}
    (hx : producerExec cfg s p = some (s1, q)) (hp : PInv cfg p) :
    s1.producers = s.producers ∧ s1.consumers = s.consumers ∧ s1.consumed = s.consumed
    ∧ (s1.produced : Multiset Int) + (p.emitted cfg : Multiset Int)
        = (s.produced : Multiset Int) + (q.emitted cfg : Multiset Int) := by
  cases hpc : p.pc <;> simp only [producerExec, hpc] at hx
  case write =>
    simp only [Option.some.injEq, Prod.mk.injEq] at hx
    obtain ⟨rfl, rfl⟩ := hx
    refine ⟨rfl, rfl, rfl, ?_⟩
    have hitem := hp.item_eq (Or.inr (Or.inr hpc))
    simp only [Producer.emitted, Producer.written, hpc, List.range_succ, List.map_append,
      List.map_singleton, ← hitem, Multiset.coe_add]
    rw [← List.append_assoc, ← Multiset.coe_add, ← Multiset.coe_add, ← Multiset.coe_add,
      ← Multiset.coe_add]
    abel
  case done => simp at hx
  all_goals (try split at hx)
  all_goals (first | (simp at hx; done) | skip)
  all_goals simp only [Option.some.injEq, Prod.mk.injEq] at hx
  all_goals obtain ⟨rfl, rfl⟩ := hx
  all_goals refine ⟨rfl, rfl, rfl, ?_⟩
  all_goals simp only [Producer.emitted, Producer.written, hpc]

theorem consumerExec_frame {cfg : Config} {s s1 : State} {c d : Consumer}
    (hx : consumerExec cfg s c = some (s1, d)) :
    s1.producers = s.producers ∧ s1.consumers = s.consumers ∧ s1.produced = s.produced := by
  cases hpc : c.pc <;> simp only [consumerExec, hpc] at hx
  all_goals (try split at hx)
  all_goals (first | (simp at hx; done) | skip)
  all_goals simp only [Option.some.injEq, Prod.mk.injEq] at hx
  all_goals obtain ⟨rfl, rfl⟩ := hx
  all_goals exact ⟨rfl, rfl, rfl⟩

theorem producerExec_logInv {cfg : Config} {s s1 : State} {p q : Producer} {k : Nat}
    (hk : s.producers[k]? = some p) (hx : producerExec cfg s p = some (s1, q))
    (h : LogInv cfg s) : LogInv cfg { s1 with producers := s1.producers.set k q } := by
  have hp : PInv cfg p := h.pinv p (List.getElem?_mem hk)
  obtain ⟨hq, hid⟩ := producerExec_pinv hx hp
  obtain ⟨f1, f2, -, f4⟩ := producerExec_log hx hp
  obtain ⟨b1, b2, b3, b4, b5⟩ := h
  have hms := mtally_set (fun p => (p.emitted cfg : Multiset Int)) s.producers k p q hk
  refine ⟨?_, ?_, ?_, ?_, ?_⟩
  · show ∀ x ∈ s1.producers.set k q, PInv cfg x
    rw [f1]; exact forall_mem_set b1 hq
  · show ∀ x ∈ s1.consumers, CInv cfg x
    rw [f2]; exact b2
  · show (s1.producers.set k q).map (fun p => p.thread_id) = cfg.producerIds
    rw [f1]; exact (map_set_same _ _ k p q hk hid).trans b3
  · show s1.consumers.length = _
    rw [f2]; exact b4
  · show (s1.produced : Multiset Int)
        = mtally (fun p => (p.emitted cfg : Multiset Int)) (s1.producers.set k q)
    rw [f1]
    have h2 : (s1.produced : Multiset Int) + (p.emitted cfg : Multiset Int)
        = mtally (fun p => (p.emitted cfg : Multiset Int)) (s.producers.set k q)
          + (p.emitted cfg : Multiset Int) := by
      rw [f4, hms, b5]
    exact add_right_cancel h2

theorem consumerExec_logInv {cfg : Config} {s s1 : State} {c d : Consumer} {k : Nat}
    (hk : s.consumers[k]? = some c) (hx : consumerExec cfg s c = some (s1, d))
    (h : LogInv cfg s) : LogInv cfg { s1 with consumers := s1.consumers.set k d } := by
  have hc : CInv cfg c := h.cinv c (List.getElem?_mem hk)
  have hd := consumerExec_cinv hx hc
  obtain ⟨f1, f2, f3⟩ := consumerExec_frame hx
  obtain ⟨b1, b2, b3, b4, b5⟩ := h
  refine ⟨?_, ?_, ?_, ?_, ?_⟩
  · show ∀ x ∈ s1.producers, PInv cfg x
    rw [f1]; exact b1
  · show ∀ x ∈ s1.consumers.set k d, CInv cfg x
    rw [f2]; exact forall_mem_set b2 hd
  · show s1.producers.map (fun p => p.thread_id) = cfg.producerIds
    rw [f1]; exact b3
  · show (s1.consumers.set k d).length = _
    rw [f2, List.length_set]; exact b4
  · show (s1.produced : Multiset Int)
        = mtally (fun p => (p.emitted cfg : Multiset Int)) s1.producers
    rw [f1, f3]; exact b5

theorem tally_eq_zero {α : Type} {f : α → Nat} {l : List α} (h : ∀ x ∈ l, f x = 0) :
    tally f l = 0 := by
  induction l with
  | nil => rfl
  | cons x l ih =>
    simp only [tally, List.map_cons, List.sum_cons] at ih ⊢
    rw [h x (List.mem_cons_self _ _), ih (fun y hy => h y (List.mem_cons_of_mem _ hy))]

theorem mtally_eq_zero {α : Type} {f : α → Multiset Int} {l : List α}
    (h : ∀ x ∈ l, f x = 0) : mtally f l = 0 := by
  induction l with
  | nil => rfl
  | cons x l ih =>
    simp only [mtally, List.map_cons, List.sum_cons] at ih ⊢
    rw [h x (List.mem_cons_self _ _), ih (fun y hy => h y (List.mem_cons_of_mem _ hy))]
    rfl

theorem inv_init (cfg : Config) : Inv cfg (initState cfg) := by
  have hP : ∀ p ∈ (initState cfg).producers, p.i = 0 ∧ p.pc = .loop := by
    intro p hp
    simp only [initState, List.mem_map] at hp
    obtain ⟨id, -, rfl⟩ := hp
    exact ⟨rfl, rfl⟩
  have hC : ∀ c ∈ (initState cfg).consumers, c.i = 0 ∧ c.pc = .loop := by
    intro c hc
    simp only [initState, List.mem_map] at hc
    obtain ⟨id, -, rfl⟩ := hc
    exact ⟨rfl, rfl⟩
  have nP0 : ∀ pos, pos ≠ PPos.loop → (initState cfg).nP pos = 0 := by
    intro pos hpos
    refine tally_eq_zero (fun p hp => ?_)
    simp [(hP p hp).2, Ne.symm hpos]
  have nC0 : ∀ pos, pos ≠ CPos.loop → (initState cfg).nC pos = 0 := by
    intro pos hpos
    refine tally_eq_zero (fun c hc => ?_)
    simp [(hC c hc).2, Ne.symm hpos]
  have iP0 : (initState cfg).iP = 0 := tally_eq_zero (fun p hp => (hP p hp).1)
  have iC0 : (initState cfg).iC = 0 := tally_eq_zero (fun c hc => (hC c hc).1)
  refine ⟨?_, ?_, ?_⟩
  · unfold NumInv
    constructor <;> (try simp [nP0, nC0, iP0, iC0]) <;> simp [initState, TABLE_SIZE]
  · unfold BufInv
    rw [nC0 _ (by decide)]
    refine ⟨by simp [initState], by simp [initState], ?_, ?_⟩
    · intro j _ h2
      simp [initState] at h2
    · intro j _ h2
      have : j % 2 < 2 := Nat.mod_lt _ (by decide)
      simp only [initState, TABLE_SIZE]
      interval_cases (j % 2) <;> rfl
  · refine ⟨?_, ?_, ?_, ?_, ?_⟩
    · intro p hp
      obtain ⟨h1, h2⟩ := hP p hp
      refine ⟨by omega, fun h => absurd h2 h, fun h => ?_, fun h => ?_⟩
      · rw [h2] at h; cases h
      · rw [h2] at h; simp at h
    · intro c hc
      obtain ⟨h1, h2⟩ := hC c hc
      refine ⟨by omega, fun h => absurd h2 h, fun h => ?_⟩
      rw [h2] at h; cases h
    · simp [initState, Function.comp_def]
    · simp [initState]
    · symm
      refine mtally_eq_zero (fun p hp => ?_)
      obtain ⟨h1, h2⟩ := hP p hp
      simp [Producer.emitted, Producer.written, h1, h2]

theorem inv_step {cfg : Config} {s s1 : State} {w : Worker} (h : Inv cfg s)
    (hs : step cfg w s = some s1) : Inv cfg s1 := by
  cases w with
  | producer k =>
    simp only [step] at hs
    cases hk : s.producers[k]? with
    | none => simp [hk] at hs
    | some p =>
      simp only [hk] at hs
      cases hx : producerExec cfg s p with
      | none => simp [hx] at hs
      | some r =>
        obtain ⟨s2, q⟩ := r
        simp only [hx, Option.some.injEq] at hs
        subst hs
        exact ⟨producerExec_numInv hk hx h.num, producerExec_bufInv hk hx h.num h.buf,
          producerExec_logInv hk hx h.log⟩
  | consumer k =>
    simp only [step] at hs
    cases hk : s.consumers[k]? with
    | none => simp [hk] at hs
    | some c =>
      simp only [hk] at hs
      cases hx : consumerExec cfg s c with
      | none => simp [hx] at hs
      | some r =>
        obtain ⟨s2, d⟩ := r
        simp only [hx, Option.some.injEq] at hs
        subst hs
        exact ⟨consumerExec_numInv hk hx h.num, consumerExec_bufInv hk hx h.num h.buf,
          consumerExec_logInv hk hx h.log⟩

theorem inv_of_reachable {cfg : Config} {s : State} (h : Reachable cfg s) : Inv cfg s := by
  induction h with
  | init => exact inv_init cfg
  | step w _ hs ih => exact inv_step ih hs

theorem tally_cons {α : Type} (f : α → Nat) (x : α) (l : List α) :
    tally f (x :: l) = f x + tally f l := rfl

theorem countP_holdsMutex_producers (l : List Producer) :
    l.countP Producer.holdsMutex
      = tally (fun p => if p.pc = PPos.write then 1 else 0) l
        + tally (fun p => if p.pc = PPos.advIn then 1 else 0) l
        + tally (fun p => if p.pc = PPos.incCount then 1 else 0) l
        + tally (fun p => if p.pc = PPos.postMutex then 1 else 0) l := by
  induction l with
  | nil => rfl
  | cons x l ih =>
    simp only [List.countP_cons, tally_cons, ih, Producer.holdsMutex]
    obtain ⟨tid, i, item, pc⟩ := x
    cases pc <;> simp <;> omega

theorem countP_holdsMutex_consumers (l : List Consumer) :
    l.countP Consumer.holdsMutex
      = tally (fun c => if c.pc = CPos.read then 1 else 0) l
        + tally (fun c => if c.pc = CPos.clear then 1 else 0) l
        + tally (fun c => if c.pc = CPos.advOut then 1 else 0) l
        + tally (fun c => if c.pc = CPos.decCount then 1 else 0) l
        + tally (fun c => if c.pc = CPos.postMutex then 1 else 0) l := by
  induction l with
  | nil => rfl
  | cons x l ih =>
    simp only [List.countP_cons, tally_cons, ih, Consumer.holdsMutex]
    obtain ⟨tid, i, item, pc⟩ := x
    cases pc <;> simp <;> omega

theorem countP_inFlight_producers (l : List Producer) :
    l.countP Producer.inFlight
      = tally (fun p => if p.pc = PPos.waitMutex then 1 else 0) l
        + tally (fun p => if p.pc = PPos.write then 1 else 0) l
        + tally (fun p => if p.pc = PPos.advIn then 1 else 0) l
        + tally (fun p => if p.pc = PPos.incCount then 1 else 0) l
        + tally (fun p => if p.pc = PPos.postMutex then 1 else 0) l
        + tally (fun p => if p.pc = PPos.postFull then 1 else 0) l := by
  induction l with
  | nil => rfl
  | cons x l ih =>
    simp only [List.countP_cons, tally_cons, ih, Producer.inFlight]
    obtain ⟨tid, i, item, pc⟩ := x
    cases pc <;> simp <;> omega

theorem countP_inFlight_consumers (l : List Consumer) :
    l.countP Consumer.inFlight
      = tally (fun c => if c.pc = CPos.waitMutex then 1 else 0) l
        + tally (fun c => if c.pc = CPos.read then 1 else 0) l
        + tally (fun c => if c.pc = CPos.clear then 1 else 0) l
        + tally (fun c => if c.pc = CPos.advOut then 1 else 0) l
        + tally (fun c => if c.pc = CPos.decCount then 1 else 0) l
        + tally (fun c => if c.pc = CPos.postMutex then 1 else 0) l
        + tally (fun c => if c.pc = CPos.postEmpty then 1 else 0) l := by
  induction l with
  | nil => rfl
  | cons x l ih =>
    simp only [List.countP_cons, tally_cons, ih, Consumer.inFlight]
    obtain ⟨tid, i, item, pc⟩ := x
    cases pc <;> simp <;> omega

/-- With no worker inside the mutual-exclusion window, the census of every position inside
the window is zero. -/
theorem State.mutexFree_census {s : State} (h : s.mutexFree) :
    s.nP .write = 0 ∧ s.nP .advIn = 0 ∧ s.nP .incCount = 0 ∧ s.nP .postMutex = 0
    ∧ s.nC .read = 0 ∧ s.nC .clear = 0 ∧ s.nC .advOut = 0 ∧ s.nC .decCount = 0
    ∧ s.nC .postMutex = 0 := by
  obtain ⟨hp, hc⟩ := h
  have hP : ∀ pos : PPos, (∀ p : Producer, p.pc = pos → p.holdsMutex = true) →
      s.nP pos = 0 := by
    intro pos hpos
    refine tally_eq_zero (fun p hp1 => ?_)
    have h1 := hp p hp1
    by_cases hc : p.pc = pos
    · rw [hpos p hc] at h1; cases h1
    · simp [hc]
  have hC : ∀ pos : CPos, (∀ c : Consumer, c.pc = pos → c.holdsMutex = true) →
      s.nC pos = 0 := by
    intro pos hpos
    refine tally_eq_zero (fun c hc1 => ?_)
    have h1 := hc c hc1
    by_cases hc : c.pc = pos
    · rw [hpos c hc] at h1; cases h1
    · simp [hc]
  refine ⟨hP _ ?_, hP _ ?_, hP _ ?_, hP _ ?_, hC _ ?_, hC _ ?_, hC _ ?_, hC _ ?_, hC _ ?_⟩
  all_goals intro x hx
  all_goals simp [Producer.holdsMutex, Consumer.holdsMutex, hx]

theorem mtally_full (cfg : Config) (l : List Producer) :
    mtally (fun p => (((List.range cfg.NUM_ITEMS_TO_PRODUCE).map (cfg.mkItem p.thread_id)
        : List Int) : Multiset Int)) l
      = (((l.map fun p => p.thread_id).flatMap fun id =>
          (List.range cfg.NUM_ITEMS_TO_PRODUCE).map (cfg.mkItem id) : List Int)
          : Multiset Int) := by
  induction l with
  | nil => rfl
  | cons x l ih =>
    simp only [mtally, List.map_cons, List.sum_cons, List.flatMap_cons] at ih ⊢
    rw [ih, Multiset.coe_add]

theorem Producer.written_le {cfg : Config} {p : Producer} (h : PInv cfg p) :
    p.written ≤ cfg.NUM_ITEMS_TO_PRODUCE := by
  obtain ⟨a1, a2, a3, a4⟩ := h
  unfold Producer.written
  cases hpc : p.pc <;> simp [hpc] at a2 ⊢ <;> omega

/-- The placed items form a sub-multiset of the items the configuration will ever place. -/
theorem Inv.produced_le {cfg : Config} {s : State} (h : Inv cfg s) :
    (s.produced : Multiset Int) ≤ (allItems cfg : Multiset Int) := by
  rw [h.log.log, allItems, ← h.log.pids, ← mtally_full]
  refine List.sum_le_sum (fun p hp => ?_)
  refine Multiset.coe_le.2 (List.Sublist.subperm ?_)
  exact (List.range_sublist.2 (Producer.written_le (h.log.pinv p hp))).map _

theorem Inv.produced_mem {cfg : Config} {s : State} (h : Inv cfg s) {x : Int}
    (hx : x ∈ s.produced) : x ∈ allItems cfg :=
  Multiset.mem_coe.1 (Multiset.mem_of_le h.produced_le (Multiset.mem_coe.2 hx))

theorem Inv.produced_nodup {cfg : Config} {s : State} (h : Inv cfg s)
    (hn : (allItems cfg).Nodup) : s.produced.Nodup :=
  Multiset.coe_nodup.1 (Multiset.nodup_of_le h.produced_le (Multiset.coe_nodup.2 hn))

/-- The slot under the read cursor, as the logs see it: when the retrieved log is shorter than
the placed log and no consumer has an uncleared slot, the slot `R % 2` holds the oldest placed
item that has not been retrieved. -/
theorem BufCore.head {tbl lp lc : List Int} (h : BufCore tbl lp lc 0)
    (hlt : lc.length < lp.length) :
    ∃ x rest, tbl[lc.length % 2]? = some x ∧ lp = lc ++ x :: rest := by
  refine ⟨lp[lc.length], lp.drop (lc.length + 1), ?_, ?_⟩
  · rw [h.filled lc.length (by omega) hlt, List.getElem?_eq_getElem hlt]
  · have h1 := List.take_append_drop lc.length lp
    rw [← h.fifo, List.drop_eq_getElem_cons hlt] at h1
    exact h1.symm

theorem not_mem_of_split_nodup {l lc rest : List Int} {x : Int} (hn : l.Nodup)
    (hl : l = lc ++ x :: rest) : x ∉ lc := by
  subst hl
  intro hx
  have := List.nodup_append.1 hn
  exact this.2.2 hx (List.mem_cons_self _ _)

theorem reachable_of_run {cfg : Config} :
    ∀ (sched : List Worker) (s s1 : State), Reachable cfg s → run cfg sched s = some s1 →
      Reachable cfg s1
  | [], s, s1, h, hr => by
    simp only [run, Option.some.injEq] at hr
    exact hr ▸ h
  | w :: ws, s, s1, h, hr => by
    simp only [run] at hr
    cases hs : step cfg w s with
    | none => simp [hs] at hr
    | some s2 =>
      simp only [hs] at hr
      exact reachable_of_run ws s2 s1 (Reachable.step w h hs) hr

theorem reachable_fullState : Reachable codeConfig fullState :=
  reachable_of_run (List.replicate 16 (.producer 0)) _ _ Reachable.init (by decide)

theorem allItems_codeConfig : allItems codeConfig = codeItems := by decide

theorem codeItems_ne_zero : ∀ x ∈ codeItems, x ≠ 0 := by decide

theorem codeItems_nodup : codeItems.Nodup := by decide

/-- C1 (as stated) fails: in the reachable state `fullState` no worker holds the mutex, yet
`count` is 2 while `(in - out) mod TABLE_SIZE` is 0. -/
theorem count_eq_cursor_diff_fails_when_full :
    Reachable codeConfig fullState ∧ fullState.mutexFree
      ∧ fullState.shared_table.count
          ≠ (fullState.shared_table.in_ - fullState.shared_table.out) % TABLE_SIZE :=
  ⟨reachable_fullState, by decide, by decide⟩

/-- C1 (amended): in every reachable state in which no worker holds the mutex, `count` is
congruent to `in - out` modulo `TABLE_SIZE`; it equals `(in - out) mod TABLE_SIZE` whenever
`count < TABLE_SIZE`, and when `count = TABLE_SIZE` the two cursors coincide. -/
theorem count_cursor_congruence (s : State) (h : Reachable codeConfig s) (hm : s.mutexFree) :
    s.shared_table.count % TABLE_SIZE
        = (s.shared_table.in_ - s.shared_table.out) % TABLE_SIZE
      ∧ (s.shared_table.count < TABLE_SIZE →
          s.shared_table.count = (s.shared_table.in_ - s.shared_table.out) % TABLE_SIZE)
      ∧ (s.shared_table.count = TABLE_SIZE → s.shared_table.in_ = s.shared_table.out) := by
  obtain ⟨a1, a2, a3, a4, a5, a6, a7, a8, a9, a10, a11, a12⟩ := (inv_of_reachable h).num
  obtain ⟨m1, m2, m3, m4, m5, m6, m7, m8, m9⟩ := s.mutexFree_census hm
  simp only [TABLE_SIZE, Nat.cast_ofNat]
  refine ⟨?_, ?_, ?_⟩ <;> omega

/-- Witness for C1 (amended) at the full table. -/
theorem count_cursor_congruence_witness :
    fullState.shared_table.count % TABLE_SIZE
        = (fullState.shared_table.in_ - fullState.shared_table.out) % TABLE_SIZE
      ∧ (fullState.shared_table.count < TABLE_SIZE →
          fullState.shared_table.count
            = (fullState.shared_table.in_ - fullState.shared_table.out) % TABLE_SIZE)
      ∧ (fullState.shared_table.count = TABLE_SIZE →
          fullState.shared_table.in_ = fullState.shared_table.out) :=
  count_cursor_congruence fullState
    (reachable_of_run (List.replicate 16 (.producer 0)) _ _ Reachable.init (by decide))
    (by decide)

/-- C2: in every reachable state, inside or outside a critical section,
`0 ≤ count ≤ TABLE_SIZE`. -/
theorem count_within_bounds (s : State) (h : Reachable codeConfig s) :
    0 ≤ s.shared_table.count ∧ s.shared_table.count ≤ TABLE_SIZE := by
  obtain ⟨a1, a2, a3, a4, a5, a6, a7, a8, a9, a10, a11, a12⟩ := (inv_of_reachable h).num
  simp only [TABLE_SIZE, Nat.cast_ofNat]
  constructor <;> omega

/-- Witness for C2 at the full table. -/
theorem count_within_bounds_witness :
    0 ≤ fullState.shared_table.count ∧ fullState.shared_table.count ≤ TABLE_SIZE :=
  count_within_bounds fullState
    (reachable_of_run (List.replicate 16 (.producer 0)) _ _ Reachable.init (by decide))

/-- C3: in every reachable state at most one worker, of either role, is between its
`sem_wait(mutex)` and its `sem_post(mutex)`. -/
theorem mutual_exclusion (s : State) (h : Reachable codeConfig s) : s.holders ≤ 1 := by
  obtain ⟨a1, a2, a3, a4, a5, a6, a7, a8, a9, a10, a11, a12⟩ := (inv_of_reachable h).num
  simp only [State.holders, countP_holdsMutex_producers, countP_holdsMutex_consumers]
  simp only [State.nP, State.nC] at a2
  omega

/-- Witness for C3 in a state where a producer is inside its critical section. -/
theorem mutual_exclusion_witness : writeState.holders ≤ 1 :=
  mutual_exclusion writeState
    (reachable_of_run (List.replicate 3 (.producer 0)) _ _ Reachable.init (by decide))

/-- C4: whenever a producer thread is about to execute `table[in] = item`, the table is not
full (`count < TABLE_SIZE`) and the slot `table[in]` holds the empty sentinel 0. -/
theorem produce_writes_free_slot (s : State) (h : Reachable codeConfig s) (p : Producer)
    (hp : p ∈ s.producers) (hpc : p.pc = .write) :
    s.shared_table.count < TABLE_SIZE
      ∧ 0 ≤ s.shared_table.in_
      ∧ s.shared_table.table[s.shared_table.in_.toNat]? = some 0 := by
  have hi := inv_of_reachable h
  obtain ⟨k, hk⟩ := List.mem_iff_getElem?.1 hp
  obtain ⟨f1, f2, f3, f4, f5⟩ := NumCore.at_write hi.num (State.nP_ge hk hpc)
  refine ⟨by simpa [TABLE_SIZE] using f5, hi.num.in_nonneg, ?_⟩
  rw [f2]
  exact hi.buf.free _ (le_refl _) (by omega)

/-- Witness for C4: producer thread 1 about to write its first item. -/
theorem produce_writes_free_slot_witness :
    writeState.shared_table.count < TABLE_SIZE
      ∧ 0 ≤ writeState.shared_table.in_
      ∧ writeState.shared_table.table[writeState.shared_table.in_.toNat]? = some 0 :=
  produce_writes_free_slot writeState
    (reachable_of_run (List.replicate 3 (.producer 0)) _ _ Reachable.init (by decide))
    { thread_id := 1, i := 0, item := 1001, pc := .write } (by decide) rfl

/-- C5: whenever a consumer thread is about to execute `item = table[out]`, the table is not
empty (`count > 0`) and the slot `table[out]` holds a non-zero value `x` that was placed by a
producer and has not been retrieved: the placed log is the retrieved log followed by `x` and
the later items, and `x` does not occur in the retrieved log. -/
theorem consume_reads_filled_slot (s : State) (h : Reachable codeConfig s) (c : Consumer)
    (hc : c ∈ s.consumers) (hpc : c.pc = .read) :
    0 < s.shared_table.count
      ∧ ∃ x rest, s.shared_table.table[s.shared_table.out.toNat]? = some x ∧ x ≠ 0
          ∧ s.produced = s.consumed ++ x :: rest ∧ x ∉ s.consumed := by
  have hi := inv_of_reachable h
  obtain ⟨k, hk⟩ := List.mem_iff_getElem?.1 hc
  obtain ⟨f1, f2, f3, f4, f5⟩ := NumCore.at_read hi.num (State.nC_ge hk hpc)
  have hb := hi.buf
  unfold BufInv at hb
  rw [f1] at hb
  obtain ⟨x, rest, h1, h2⟩ := hb.head f3
  refine ⟨f4, x, rest, by rw [f2]; exact h1, ?_, h2, ?_⟩
  · refine codeItems_ne_zero x ?_
    rw [← allItems_codeConfig]
    exact hi.produced_mem (by rw [h2]; simp)
  · exact not_mem_of_split_nodup
      (hi.produced_nodup (by rw [allItems_codeConfig]; exact codeItems_nodup)) h2

/-- Witness for C5: consumer thread 1 about to read item 1001. -/
theorem consume_reads_filled_slot_witness :
    0 < readState.shared_table.count
      ∧ ∃ x rest, readState.shared_table.table[readState.shared_table.out.toNat]? = some x
          ∧ x ≠ 0 ∧ readState.produced = readState.consumed ++ x :: rest
          ∧ x ∉ readState.consumed :=
  consume_reads_filled_slot readState
    (reachable_of_run (List.replicate 8 (.producer 0) ++ List.replicate 3 (.consumer 0)) _ _
      Reachable.init (by decide))
    { thread_id := 1, i := 0, item := 0, pc := .read } (by decide) rfl

/-- C9: in every reachable state in which no worker holds the mutex, the slot at `out` holds a
valid item exactly when `count > 0`: if `count > 0` it holds a non-zero value that was placed
and not yet retrieved (the oldest such), and if `count = 0` it holds the empty sentinel 0. -/
theorem slot_at_out_valid_iff (s : State) (h : Reachable codeConfig s) (hm : s.mutexFree) :
    (0 < s.shared_table.count →
        ∃ x rest, s.shared_table.table[s.shared_table.out.toNat]? = some x ∧ x ≠ 0
          ∧ s.produced = s.consumed ++ x :: rest ∧ x ∉ s.consumed)
      ∧ (s.shared_table.count = 0 →
          s.shared_table.table[s.shared_table.out.toNat]? = some 0)
      ∧ (0 < s.shared_table.count ↔
          s.shared_table.table[s.shared_table.out.toNat]? ≠ some 0) := by
  have hi := inv_of_reachable h
  obtain ⟨a1, a2, a3, a4, a5, a6, a7, a8, a9, a10, a11, a12⟩ := hi.num
  obtain ⟨m1, m2, m3, m4, m5, m6, m7, m8, m9⟩ := s.mutexFree_census hm
  have hb := hi.buf
  unfold BufInv at hb
  rw [m6] at hb
  have hout : s.shared_table.out.toNat = s.consumed.length % 2 := by omega
  have hpos : 0 < s.shared_table.count →
      ∃ x rest, s.shared_table.table[s.shared_table.out.toNat]? = some x ∧ x ≠ 0
          ∧ s.produced = s.consumed ++ x :: rest ∧ x ∉ s.consumed := by
    intro hc
    obtain ⟨x, rest, h1, h2⟩ := hb.head (by omega)
    refine ⟨x, rest, by rw [hout]; exact h1, ?_, h2, ?_⟩
    · refine codeItems_ne_zero x ?_
      rw [← allItems_codeConfig]
      exact hi.produced_mem (by rw [h2]; simp)
    · exact not_mem_of_split_nodup
        (hi.produced_nodup (by rw [allItems_codeConfig]; exact codeItems_nodup)) h2
  have hzero : s.shared_table.count = 0 →
      s.shared_table.table[s.shared_table.out.toNat]? = some 0 := by
    intro hc
    rw [hout]
    have := hb.free s.consumed.length (by omega) (by omega)
    exact this
  refine ⟨hpos, hzero, ?_, ?_⟩
  · intro hc
    obtain ⟨x, rest, h1, h2, -, -⟩ := hpos hc
    rw [h1]
    simpa using h2
  · intro hne
    by_contra hc
    exact hne (hzero (by omega))

/-- Witness for C9 at the full table. -/
theorem slot_at_out_valid_iff_witness :
    (0 < fullState.shared_table.count →
        ∃ x rest, fullState.shared_table.table[fullState.shared_table.out.toNat]? = some x
          ∧ x ≠ 0 ∧ fullState.produced = fullState.consumed ++ x :: rest
          ∧ x ∉ fullState.consumed)
      ∧ (fullState.shared_table.count = 0 →
          fullState.shared_table.table[fullState.shared_table.out.toNat]? = some 0)
      ∧ (0 < fullState.shared_table.count ↔
          fullState.shared_table.table[fullState.shared_table.out.toNat]? ≠ some 0) :=
  slot_at_out_valid_iff fullState
    (reachable_of_run (List.replicate 16 (.producer 0)) _ _ Reachable.init (by decide))
    (by decide)

/-- C10: in every reachable state the tokens of `empty` and `full` together with the workers
in flight add up to `TABLE_SIZE`, the mutex value together with the workers that hold it adds
up to 1, and whenever no worker is in flight `full = count` and
`empty = TABLE_SIZE - count`. -/
theorem semaphore_token_conservation (s : State) (h : Reachable codeConfig s) :
    s.empty + s.full + s.producers.countP Producer.inFlight
        + s.consumers.countP Consumer.inFlight = TABLE_SIZE
      ∧ s.mutex + s.holders = 1
      ∧ (s.producers.countP Producer.inFlight = 0 →
          s.consumers.countP Consumer.inFlight = 0 →
          (s.full : Int) = s.shared_table.count
            ∧ (s.empty : Int) = TABLE_SIZE - s.shared_table.count) := by
  obtain ⟨a1, a2, a3, a4, a5, a6, a7, a8, a9, a10, a11, a12⟩ := (inv_of_reachable h).num
  simp only [State.holders, countP_holdsMutex_producers, countP_holdsMutex_consumers,
    countP_inFlight_producers, countP_inFlight_consumers, TABLE_SIZE, Nat.cast_ofNat]
  simp only [State.nP, State.nC] at a1 a2 a3
  refine ⟨?_, ?_, ?_⟩
  · omega
  · omega
  · intro h1 h2
    constructor <;> omega

/-- Witness for C10 in a state where a consumer is in flight. -/
theorem semaphore_token_conservation_witness :
    readState.empty + readState.full + readState.producers.countP Producer.inFlight
        + readState.consumers.countP Consumer.inFlight = TABLE_SIZE
      ∧ readState.mutex + readState.holders = 1
      ∧ (readState.producers.countP Producer.inFlight = 0 →
          readState.consumers.countP Consumer.inFlight = 0 →
          (readState.full : Int) = readState.shared_table.count
            ∧ (readState.empty : Int) = TABLE_SIZE - readState.shared_table.count) :=
  semaphore_token_conservation readState
    (reachable_of_run (List.replicate 8 (.producer 0) ++ List.replicate 3 (.consumer 0)) _ _
      Reachable.init (by decide))

theorem producerExec_emit {cfg : Config} {s s1 : State} {p q : Producer}
    (hx : producerExec cfg s p = some (s1, q)) (hp : PInv cfg p) :
    ∃ extra, s1.produced = s.produced ++ extra ∧ q.emitted cfg = p.emitted cfg ++ extra := by
  cases hpc : p.pc <;> simp only [producerExec, hpc] at hx
  case write =>
    simp only [Option.some.injEq, Prod.mk.injEq] at hx
    obtain ⟨rfl, rfl⟩ := hx
    refine ⟨[p.item], rfl, ?_⟩
    have hitem := hp.item_eq (Or.inr (Or.inr hpc))
    simp only [Producer.emitted, Producer.written, hpc, List.range_succ, List.map_append,
      List.map_singleton, ← hitem]
  case done => simp at hx
  all_goals (try split at hx)
  all_goals (first | (simp at hx; done) | skip)
  all_goals simp only [Option.some.injEq, Prod.mk.injEq] at hx
  all_goals obtain ⟨rfl, rfl⟩ := hx
  all_goals refine ⟨[], (List.append_nil _).symm, ?_⟩
  all_goals simp only [Producer.emitted, Producer.written, hpc, List.append_nil]

theorem orderInv_init (cfg : Config) : OrderInv cfg (initState cfg) := by
  intro p hp
  have : p ∈ (initState cfg).producers := by rw [hp]; simp
  simp only [initState, List.mem_map] at this
  obtain ⟨id, -, rfl⟩ := this
  rfl

theorem orderInv_step {cfg : Config} {s s1 : State} {w : Worker} (hi : Inv cfg s)
    (h : OrderInv cfg s) (hs : step cfg w s = some s1) : OrderInv cfg s1 := by
  cases w with
  | producer k =>
    simp only [step] at hs
    cases hk : s.producers[k]? with
    | none => simp [hk] at hs
    | some p =>
      simp only [hk] at hs
      cases hx : producerExec cfg s p with
      | none => simp [hx] at hs
      | some r =>
        obtain ⟨s2, q⟩ := r
        simp only [hx, Option.some.injEq] at hs
        subst hs
        have hp : PInv cfg p := hi.log.pinv p (List.getElem?_mem hk)
        obtain ⟨f1, -, -, -⟩ := producerExec_log hx hp
        obtain ⟨extra, e1, e2⟩ := producerExec_emit hx hp
        intro p1 hp1
        show s2.produced = _
        change s2.producers.set k q = [p1] at hp1
        rw [f1] at hp1
        have hlen : s.producers.length = 1 := by
          have := congrArg List.length hp1
          simpa using this
        obtain ⟨p0, hp0⟩ := List.length_eq_one.1 hlen
        rw [hp0] at hk hp1
        cases k with
        | zero =>
          simp only [List.getElem?_cons_zero, Option.some.injEq] at hk
          simp only [List.set_cons_zero, List.cons.injEq, and_true] at hp1
          subst hk hp1
          rw [e1, e2, h p0 hp0]
        | succ k => simp at hk
  | consumer k =>
    simp only [step] at hs
    cases hk : s.consumers[k]? with
    | none => simp [hk] at hs
    | some c =>
      simp only [hk] at hs
      cases hx : consumerExec cfg s c with
      | none => simp [hx] at hs
      | some r =>
        obtain ⟨s2, d⟩ := r
        simp only [hx, Option.some.injEq] at hs
        subst hs
        obtain ⟨f1, -, f3⟩ := consumerExec_frame hx
        intro p1 hp1
        show s2.produced = _
        change s2.producers = [p1] at hp1
        rw [f3]
        rw [f1] at hp1
        exact h p1 hp1

theorem orderInv_of_reachable {cfg : Config} {s : State} (h : Reachable cfg s) :
    OrderInv cfg s := by
  induction h with
  | init => exact orderInv_init cfg
  | step w hr hs ih => exact orderInv_step (inv_of_reachable hr) ih hs

theorem range_map_getD (items : List Int) :
    ∀ n, n ≤ items.length → (List.range n).map (fun i => items.getD i 0) = items.take n
  | 0, _ => rfl
  | n + 1, h => by
    have hn : n < items.length := h
    rw [List.range_succ, List.map_append, range_map_getD items n (by omega), List.take_succ,
      List.getElem?_eq_getElem hn]
    simp [List.getD_eq_getElem?_getD, List.getElem?_eq_getElem hn]

theorem tally_const {α : Type} {f : α → Nat} {l : List α} (n : Nat) (h : ∀ x ∈ l, f x = n) :
    tally f l = n * l.length := by
  induction l with
  | nil => simp [tally]
  | cons x l ih =>
    rw [tally_cons, h x (List.mem_cons_self _ _),
      ih (fun y hy => h y (List.mem_cons_of_mem _ hy)), List.length_cons]
    ring

/-- When every consumer has returned, the census of every other consumer position is zero. -/
theorem State.nC_of_done {s : State} (h : ∀ c ∈ s.consumers, c.pc = .done) (pos : CPos)
    (hpos : pos ≠ .done) : s.nC pos = 0 := by
  refine tally_eq_zero (fun c hc => ?_)
  simp [h c hc, Ne.symm hpos]

/-- When every producer has returned, the census of every other producer position is zero. -/
theorem State.nP_of_done {s : State} (h : ∀ p ∈ s.producers, p.pc = .done) (pos : PPos)
    (hpos : pos ≠ .done) : s.nP pos = 0 := by
  refine tally_eq_zero (fun p hp => ?_)
  simp [h p hp, Ne.symm hpos]

/-- With all consumers returned, the retrieved log has one entry per configured iteration
of every consumer thread. -/
theorem Inv.consumed_length_of_done {cfg : Config} {s : State} (hi : Inv cfg s)
    (h : ∀ c ∈ s.consumers, c.pc = .done) :
    s.consumed.length = cfg.NUM_ITEMS_TO_CONSUME * cfg.consumerIds.length := by
  have h1 := hi.num.retrieved
  rw [State.nC_of_done h _ (by decide), State.nC_of_done h _ (by decide),
    State.nC_of_done h _ (by decide), State.nC_of_done h _ (by decide),
    State.nC_of_done h _ (by decide)] at h1
  have h2 : s.iC = cfg.NUM_ITEMS_TO_CONSUME * s.consumers.length :=
    tally_const _ (fun c hc => (hi.log.cinv c hc).i_done (h c hc))
  rw [hi.log.clen] at h2
  omega

/-- With all producers returned, the placed log has one entry per configured iteration
of every producer thread. -/
theorem Inv.produced_length_of_done {cfg : Config} {s : State} (hi : Inv cfg s)
    (h : ∀ p ∈ s.producers, p.pc = .done) :
    s.produced.length = cfg.NUM_ITEMS_TO_PRODUCE * cfg.producerIds.length := by
  have h1 := hi.num.written
  rw [State.nP_of_done h _ (by decide), State.nP_of_done h _ (by decide),
    State.nP_of_done h _ (by decide), State.nP_of_done h _ (by decide)] at h1
  have h2 : s.iP = cfg.NUM_ITEMS_TO_PRODUCE * s.producers.length :=
    tally_const _ (fun p hp => (hi.log.pinv p hp).i_done (h p hp))
  have h3 : s.producers.length = cfg.producerIds.length := by
    rw [← hi.log.pids, List.length_map]
  rw [h3] at h2
  omega

theorem single_fifo (items : List Int) (s : State) (h : Reachable (singleConfig items) s) :
    s.consumed <+: items ∧ (s.allDone → s.consumed = items) := by
  have hi := inv_of_reachable h
  have ho := orderInv_of_reachable h
  have hids := hi.log.pids
  have hlen : s.producers.length = 1 := by
    have := congrArg List.length hids
    simpa [singleConfig] using this
  obtain ⟨p, hp⟩ := List.length_eq_one.1 hlen
  have hw : p.written ≤ items.length :=
    @Producer.written_le (singleConfig items) p (hi.log.pinv p (by rw [hp]; simp))
  have hprod : s.produced = items.take p.written := by
    rw [ho p hp]
    exact range_map_getD items _ hw
  have hcons : s.consumed = items.take (min s.consumed.length p.written) := by
    have := hi.buf.fifo
    rw [hprod, List.take_take] at this
    exact this
  refine ⟨?_, ?_⟩
  · obtain ⟨n, hn⟩ : ∃ n, s.consumed = items.take n := ⟨_, hcons⟩
    exact ⟨items.drop n, by rw [hn]; exact List.take_append_drop n items⟩
  · intro hd
    have hR := hi.consumed_length_of_done hd.2
    simp only [singleConfig, List.length_singleton, mul_one] at hR
    have hle := hi.buf.length_le
    rw [hprod, List.length_take] at hle
    rw [hcons]
    exact List.take_of_length_le (by omega)

/-- C6: with one producer thread and one consumer thread the retrieved sequence is FIFO. In
the scenario "items 1, 2, 3, three retrievals" every complete interleaving ends with the
retrieved sequence exactly `[1, 2, 3]`; and for every item list and every interleaving the
retrieved sequence is an initial segment of the item list, equal to it once both threads
have returned. -/
theorem fifo_single_producer_single_consumer :
    (∀ s, Reachable (singleConfig [1, 2, 3]) s → s.allDone → s.consumed = [1, 2, 3])
      ∧ (∀ (items : List Int) (s : State), Reachable (singleConfig items) s →
          s.consumed <+: items ∧ (s.allDone → s.consumed = items)) :=
  ⟨fun s h hd => (single_fifo [1, 2, 3] s h).2 hd, single_fifo⟩

/-- Witness for C6: the scenario has a complete interleaving, and it ends with the retrieved
sequence `[1, 2, 3]`. -/
theorem fifo_single_producer_single_consumer_witness :
    Reachable (singleConfig [1, 2, 3]) scenarioFinal ∧ scenarioFinal.allDone
      ∧ scenarioFinal.consumed = [1, 2, 3] :=
  ⟨reachable_of_run scenarioSchedule _ _ Reachable.init (by decide),
    by decide,
    fifo_single_producer_single_consumer.1 scenarioFinal
      (reachable_of_run scenarioSchedule _ _ Reachable.init (by decide)) (by decide)⟩

theorem mtally_congr {α : Type} {f g : α → Multiset Int} {l : List α}
    (h : ∀ x ∈ l, f x = g x) : mtally f l = mtally g l := by
  unfold mtally
  rw [List.map_congr_left h]

/-- With all producers returned, the placed log is a permutation of all configured items. -/
theorem Inv.produced_perm_of_done {cfg : Config} {s : State} (hi : Inv cfg s)
    (h : ∀ p ∈ s.producers, p.pc = .done) : s.produced.Perm (allItems cfg) := by
  refine Multiset.coe_eq_coe.1 ?_
  rw [hi.log.log, allItems, ← hi.log.pids, ← mtally_full]
  refine mtally_congr (fun p hp => ?_)
  have h1 := (hi.log.pinv p hp).i_done (h p hp)
  simp only [Producer.emitted, Producer.written, h p hp, h1]

/-- C7: in the compiled configuration (two producers placing `id * 1000 + i + 1` for ten
iterations each, two consumers retrieving ten times each), once all four threads have returned
exactly 20 items have been retrieved, the retrieved items are a permutation of the placed
items, which are a permutation of `1001..1010, 2001..2010`, and `count` is 0. -/
theorem conservation (s : State) (h : Reachable codeConfig s) (hd : s.allDone) :
    s.consumed.length = 20 ∧ s.consumed.Perm s.produced ∧ s.produced.Perm codeItems
      ∧ s.shared_table.count = 0 := by
  have hi := inv_of_reachable h
  have hR := hi.consumed_length_of_done hd.2
  have hW := hi.produced_length_of_done hd.1
  simp only [codeConfig, List.length_cons, List.length_nil] at hR hW
  have hperm := hi.produced_perm_of_done hd.1
  rw [allItems_codeConfig] at hperm
  have hfifo := hi.buf.fifo
  rw [List.take_of_length_le (by omega)] at hfifo
  refine ⟨by omega, by rw [hfifo], hperm, ?_⟩
  have h1 := hi.num.count_logs
  rw [State.nP_of_done hd.1 _ (by decide), State.nP_of_done hd.1 _ (by decide),
    State.nC_of_done hd.2 _ (by decide), State.nC_of_done hd.2 _ (by decide),
    State.nC_of_done hd.2 _ (by decide)] at h1
  omega

set_option maxRecDepth 100000

/-- Witness for C7: the compiled configuration has a complete execution, and it ends as
claimed. -/
theorem conservation_witness :
    Reachable codeConfig codeFinal ∧ codeFinal.allDone
      ∧ codeFinal.consumed.length = 20 ∧ codeFinal.consumed.Perm codeFinal.produced
      ∧ codeFinal.produced.Perm codeItems ∧ codeFinal.shared_table.count = 0 :=
  ⟨reachable_of_run codeSchedule _ _ Reachable.init (by decide), by decide,
    conservation codeFinal (reachable_of_run codeSchedule _ _ Reachable.init (by decide))
      (by decide)⟩

theorem producerExec_remaining {cfg : Config} {s s1 : State} {p q : Producer}
    (hx : producerExec cfg s p = some (s1, q)) (hp : PInv cfg p) :
    q.remaining cfg + 1 = p.remaining cfg := by
  obtain ⟨a1, a2, a3, a4⟩ := hp
  cases hpc : p.pc <;> simp only [producerExec, hpc] at hx
  all_goals (try split at hx)
  all_goals (first | (simp at hx; done) | skip)
  all_goals simp only [Option.some.injEq, Prod.mk.injEq] at hx
  all_goals obtain ⟨rfl, rfl⟩ := hx
  all_goals simp only [hpc] at a2
  all_goals simp only [Producer.remaining, hpc]
  all_goals simp at a2
  all_goals omega

theorem consumerExec_remaining {cfg : Config} {s s1 : State} {c d : Consumer}
    (hx : consumerExec cfg s c = some (s1, d)) (hc : CInv cfg c) :
    d.remaining cfg + 1 = c.remaining cfg := by
  obtain ⟨a1, a2, a3⟩ := hc
  cases hpc : c.pc <;> simp only [consumerExec, hpc] at hx
  all_goals (try split at hx)
  all_goals (first | (simp at hx; done) | skip)
  all_goals simp only [Option.some.injEq, Prod.mk.injEq] at hx
  all_goals obtain ⟨rfl, rfl⟩ := hx
  all_goals simp only [hpc] at a2
  all_goals simp only [Consumer.remaining, hpc]
  all_goals simp at a2
  all_goals omega

/-- Every transition lowers the number of remaining statements by exactly one. -/
theorem step_remaining {cfg : Config} {s s1 : State} {w : Worker} (hi : Inv cfg s)
    (hs : step cfg w s = some s1) : s1.remaining cfg + 1 = s.remaining cfg := by
  cases w with
  | producer k =>
    simp only [step] at hs
    cases hk : s.producers[k]? with
    | none => simp [hk] at hs
    | some p =>
      simp only [hk] at hs
      cases hx : producerExec cfg s p with
      | none => simp [hx] at hs
      | some r =>
        obtain ⟨s2, q⟩ := r
        simp only [hx, Option.some.injEq] at hs
        subst hs
        have hp : PInv cfg p := hi.log.pinv p (List.getElem?_mem hk)
        obtain ⟨f1, f2, -, -⟩ := producerExec_log hx hp
        have h1 := producerExec_remaining hx hp
        have h2 := tally_set (Producer.remaining cfg) s.producers k p q hk
        show tally (Producer.remaining cfg) (s2.producers.set k q)
          + tally (Consumer.remaining cfg) s2.consumers + 1 = _
        rw [f1, f2]
        unfold State.remaining
        omega
  | consumer k =>
    simp only [step] at hs
    cases hk : s.consumers[k]? with
    | none => simp [hk] at hs
    | some c =>
      simp only [hk] at hs
      cases hx : consumerExec cfg s c with
      | none => simp [hx] at hs
      | some r =>
        obtain ⟨s2, d⟩ := r
        simp only [hx, Option.some.injEq] at hs
        subst hs
        have hc : CInv cfg c := hi.log.cinv c (List.getElem?_mem hk)
        obtain ⟨f1, f2, -⟩ := consumerExec_frame hx
        have h1 := consumerExec_remaining hx hc
        have h2 := tally_set (Consumer.remaining cfg) s.consumers k c d hk
        show tally (Producer.remaining cfg) s2.producers
          + tally (Consumer.remaining cfg) (s2.consumers.set k d) + 1 = _
        rw [f1, f2]
        unfold State.remaining
        omega

/-- A schedule that runs from a reachable state uses up exactly as many remaining statements
as it is long. -/
theorem run_remaining {cfg : Config} :
    ∀ (sched : List Worker) (s s1 : State), Reachable cfg s → run cfg sched s = some s1 →
      sched.length + s1.remaining cfg = s.remaining cfg
  | [], s, s1, _, hr => by
    simp only [run, Option.some.injEq] at hr
    subst hr; simp
  | w :: ws, s, s1, h, hr => by
    simp only [run] at hr
    cases hs : step cfg w s with
    | none => simp [hs] at hr
    | some s2 =>
      simp only [hs] at hr
      have h1 := run_remaining ws s2 s1 (Reachable.step w h hs) hr
      have h2 := step_remaining (inv_of_reachable h) hs
      simp only [List.length_cons]
      omega

theorem remaining_init_codeConfig : (initState codeConfig).remaining codeConfig = 344 := by
  decide

theorem tally_pos {α : Type} {f : α → Nat} :
    ∀ {l : List α}, 0 < tally f l → ∃ (k : Nat) (x : α), l[k]? = some x ∧ 0 < f x
  | [], h => by simp [tally] at h
  | x :: l, h => by
    rw [tally_cons] at h
    by_cases hx : 0 < f x
    · exact ⟨0, x, by simp, hx⟩
    · have ht : 0 < tally f l := by omega
      obtain ⟨k, y, hk, hy⟩ := tally_pos ht
      exact ⟨k + 1, y, by simpa using hk, hy⟩

theorem tally_le_tally {α : Type} {f g : α → Nat} {l : List α} (h : ∀ x ∈ l, f x ≤ g x) :
    tally f l ≤ tally g l := by
  induction l with
  | nil => exact le_refl _
  | cons x l ih =>
    rw [tally_cons, tally_cons]
    have h1 := h x (List.mem_cons_self _ _)
    have h2 := ih (fun y hy => h y (List.mem_cons_of_mem _ hy))
    omega

theorem tally_add {α : Type} (f g : α → Nat) (l : List α) :
    tally (fun x => f x + g x) l = tally f l + tally g l := by
  induction l with
  | nil => rfl
  | cons x l ih =>
    rw [tally_cons, tally_cons, tally_cons, ih]
    omega

theorem tally_mul {α : Type} (n : Nat) (f : α → Nat) (l : List α) :
    tally (fun x => n * f x) l = n * tally f l := by
  induction l with
  | nil => rfl
  | cons x l ih =>
    rw [tally_cons, tally_cons, ih]
    ring

/-- The census of the producer positions adds up to the number of producer threads. -/
theorem State.nP_total (s : State) :
    s.nP .loop + s.nP .waitEmpty + s.nP .waitMutex + s.nP .write + s.nP .advIn
      + s.nP .incCount + s.nP .postMutex + s.nP .postFull + s.nP .done
      = s.producers.length := by
  simp only [State.nP]
  induction s.producers with
  | nil => rfl
  | cons x l ih =>
    simp only [tally_cons, List.length_cons]
    obtain ⟨tid, i, item, pc⟩ := x
    cases pc <;> simp <;> omega

/-- The census of the consumer positions adds up to the number of consumer threads. -/
theorem State.nC_total (s : State) :
    s.nC .loop + s.nC .waitFull + s.nC .waitMutex + s.nC .read + s.nC .clear + s.nC .advOut
      + s.nC .decCount + s.nC .postMutex + s.nC .postEmpty + s.nC .done
      = s.consumers.length := by
  simp only [State.nC]
  induction s.consumers with
  | nil => rfl
  | cons x l ih =>
    simp only [tally_cons, List.length_cons]
    obtain ⟨tid, i, item, pc⟩ := x
    cases pc <;> simp <;> omega

theorem step_producer_of_exec {cfg : Config} {s : State} {k : Nat} {p : Producer}
    (hk : s.producers[k]? = some p) (hx : (producerExec cfg s p).isSome = true) :
    ∃ s1, step cfg (.producer k) s = some s1 := by
  obtain ⟨⟨s1, q⟩, hr⟩ := Option.isSome_iff_exists.1 hx
  refine ⟨{ s1 with producers := s1.producers.set k q }, ?_⟩
  simp only [step, hk, hr]

theorem step_consumer_of_exec {cfg : Config} {s : State} {k : Nat} {c : Consumer}
    (hk : s.consumers[k]? = some c) (hx : (consumerExec cfg s c).isSome = true) :
    ∃ s1, step cfg (.consumer k) s = some s1 := by
  obtain ⟨⟨s1, d⟩, hr⟩ := Option.isSome_iff_exists.1 hx
  refine ⟨{ s1 with consumers := s1.consumers.set k d }, ?_⟩
  simp only [step, hk, hr]

/-- The statements of a producer that are never blocked, and the two `sem_wait` calls when
their semaphore is positive. -/
theorem producerExec_enabled (cfg : Config) (s : State) (p : Producer)
    (h : p.pc = .loop ∨ p.pc = .write ∨ p.pc = .advIn ∨ p.pc = .incCount ∨ p.pc = .postMutex
      ∨ p.pc = .postFull ∨ (p.pc = .waitEmpty ∧ 0 < s.empty)
      ∨ (p.pc = .waitMutex ∧ 0 < s.mutex)) :
    (producerExec cfg s p).isSome = true := by
  rcases h with h | h | h | h | h | h | ⟨h, h1⟩ | ⟨h, h1⟩ <;> simp only [producerExec, h]
  · split <;> rfl
  all_goals first | rfl | simp [h1]

/-- The statements of a consumer that are never blocked, and the two `sem_wait` calls when
their semaphore is positive. -/
theorem consumerExec_enabled (cfg : Config) (s : State) (c : Consumer)
    (h : c.pc = .loop ∨ c.pc = .read ∨ c.pc = .clear ∨ c.pc = .advOut ∨ c.pc = .decCount
      ∨ c.pc = .postMutex ∨ c.pc = .postEmpty ∨ (c.pc = .waitFull ∧ 0 < s.full)
      ∨ (c.pc = .waitMutex ∧ 0 < s.mutex)) :
    (consumerExec cfg s c).isSome = true := by
  rcases h with h | h | h | h | h | h | h | ⟨h, h1⟩ | ⟨h, h1⟩ <;> simp only [consumerExec, h]
  · split <;> rfl
  all_goals first | rfl | simp [h1]

/-- In the compiled configuration a reachable state in which no worker can move is final. -/
theorem stuck_allDone {s : State} (h : Reachable codeConfig s)
    (hstuck : ∀ w, step codeConfig w s = none) : s.allDone := by
  have hi := inv_of_reachable h
  have hP : ∀ pos, (∀ p : Producer, p.pc = pos → (producerExec codeConfig s p).isSome = true) →
      s.nP pos = 0 := by
    intro pos hpos
    by_contra hne
    obtain ⟨k, p, hk, hp⟩ := tally_pos (Nat.pos_of_ne_zero hne)
    have hpc : p.pc = pos := by
      by_contra hc
      simp [hc] at hp
    obtain ⟨s1, hs1⟩ := step_producer_of_exec hk (hpos p hpc)
    rw [hstuck] at hs1
    cases hs1
  have hC : ∀ pos, (∀ c : Consumer, c.pc = pos → (consumerExec codeConfig s c).isSome = true) →
      s.nC pos = 0 := by
    intro pos hpos
    by_contra hne
    obtain ⟨k, c, hk, hc⟩ := tally_pos (Nat.pos_of_ne_zero hne)
    have hpc : c.pc = pos := by
      by_contra hc1
      simp [hc1] at hc
    obtain ⟨s1, hs1⟩ := step_consumer_of_exec hk (hpos c hpc)
    rw [hstuck] at hs1
    cases hs1
  have p1 : s.nP .loop = 0 := hP _ (fun p hp => producerExec_enabled _ _ _ (by simp [hp]))
  have p2 : s.nP .write = 0 := hP _ (fun p hp => producerExec_enabled _ _ _ (by simp [hp]))
  have p3 : s.nP .advIn = 0 := hP _ (fun p hp => producerExec_enabled _ _ _ (by simp [hp]))
  have p4 : s.nP .incCount = 0 := hP _ (fun p hp => producerExec_enabled _ _ _ (by simp [hp]))
  have p5 : s.nP .postMutex = 0 := hP _ (fun p hp => producerExec_enabled _ _ _ (by simp [hp]))
  have p6 : s.nP .postFull = 0 := hP _ (fun p hp => producerExec_enabled _ _ _ (by simp [hp]))
  have c1 : s.nC .loop = 0 := hC _ (fun c hc => consumerExec_enabled _ _ _ (by simp [hc]))
  have c2 : s.nC .read = 0 := hC _ (fun c hc => consumerExec_enabled _ _ _ (by simp [hc]))
  have c3 : s.nC .clear = 0 := hC _ (fun c hc => consumerExec_enabled _ _ _ (by simp [hc]))
  have c4 : s.nC .advOut = 0 := hC _ (fun c hc => consumerExec_enabled _ _ _ (by simp [hc]))
  have c5 : s.nC .decCount = 0 := hC _ (fun c hc => consumerExec_enabled _ _ _ (by simp [hc]))
  have c6 : s.nC .postMutex = 0 := hC _ (fun c hc => consumerExec_enabled _ _ _ (by simp [hc]))
  have c7 : s.nC .postEmpty = 0 := hC _ (fun c hc => consumerExec_enabled _ _ _ (by simp [hc]))
  obtain ⟨a1, a2, a3, a4, a5, a6, a7, a8, a9, a10, a11, a12⟩ := hi.num
  have hm : 0 < s.mutex := by omega
  have p7 : s.nP .waitMutex = 0 :=
    hP _ (fun p hp => producerExec_enabled _ _ _ (by simp [hp, hm]))
  have c8 : s.nC .waitMutex = 0 :=
    hC _ (fun c hc => consumerExec_enabled _ _ _ (by simp [hc, hm]))
  have p8 : 0 < s.empty → s.nP .waitEmpty = 0 := fun he =>
    hP _ (fun p hp => producerExec_enabled _ _ _ (by simp [hp, he]))
  have c9 : 0 < s.full → s.nC .waitFull = 0 := fun hf =>
    hC _ (fun c hc => consumerExec_enabled _ _ _ (by simp [hc, hf]))
  have tP := s.nP_total
  have tC := s.nC_total
  have lP : s.producers.length = 2 := by
    have := congrArg List.length hi.log.pids
    simpa [codeConfig] using this
  have lC : s.consumers.length = 2 := by
    have := hi.log.clen
    simpa [codeConfig] using this
  have b1 : s.iP + s.nP .waitEmpty ≤ 10 * s.producers.length := by
    have := tally_le_tally (l := s.producers)
      (f := fun p => p.i + (if p.pc = PPos.waitEmpty then 1 else 0)) (g := fun _ => 10)
      (fun p hp => by
        obtain ⟨q1, q2, q3, q4⟩ := hi.log.pinv p hp
        simp only [codeConfig] at q1 q2
        by_cases hc : p.pc = .waitEmpty
        · have := q2 (by simp [hc]) (by simp [hc])
          simp [hc]; omega
        · simp [hc]; omega)
    rw [tally_add, tally_const 10 (fun _ _ => rfl)] at this
    exact this
  have b2 : 10 * s.nP .done ≤ s.iP := by
    have := tally_le_tally (l := s.producers)
      (f := fun p => 10 * (if p.pc = PPos.done then 1 else 0)) (g := fun p => p.i)
      (fun p hp => by
        obtain ⟨q1, q2, q3, q4⟩ := hi.log.pinv p hp
        simp only [codeConfig] at q3
        by_cases hc : p.pc = .done
        · have := q3 hc
          simp [hc]; omega
        · simp [hc])
    rw [tally_mul] at this
    exact this
  have b3 : s.iC + s.nC .waitFull ≤ 10 * s.consumers.length := by
    have := tally_le_tally (l := s.consumers)
      (f := fun c => c.i + (if c.pc = CPos.waitFull then 1 else 0)) (g := fun _ => 10)
      (fun c hc1 => by
        obtain ⟨q1, q2, q3⟩ := hi.log.cinv c hc1
        simp only [codeConfig] at q1 q2
        by_cases hc : c.pc = .waitFull
        · have := q2 (by simp [hc]) (by simp [hc])
          simp [hc]; omega
        · simp [hc]; omega)
    rw [tally_add, tally_const 10 (fun _ _ => rfl)] at this
    exact this
  have b4 : 10 * s.nC .done ≤ s.iC := by
    have := tally_le_tally (l := s.consumers)
      (f := fun c => 10 * (if c.pc = CPos.done then 1 else 0)) (g := fun c => c.i)
      (fun c hc1 => by
        obtain ⟨q1, q2, q3⟩ := hi.log.cinv c hc1
        simp only [codeConfig] at q3
        by_cases hc : c.pc = .done
        · have := q3 hc
          simp [hc]; omega
        · simp [hc])
    rw [tally_mul] at this
    exact this
  have hwe : s.nP .waitEmpty = 0 := by
    by_contra hne
    have he : s.empty = 0 := by
      by_contra he
      exact hne (p8 (Nat.pos_of_ne_zero he))
    have hf : s.nC .waitFull = 0 := c9 (by omega)
    omega
  have hwf : s.nC .waitFull = 0 := by
    by_contra hne
    have hf : s.full = 0 := by
      by_contra hf
      exact hne (c9 (Nat.pos_of_ne_zero hf))
    omega
  constructor
  · intro p hp
    obtain ⟨k, hk⟩ := List.mem_iff_getElem?.1 hp
    by_contra hc
    have := State.nP_ge hk rfl
    cases hpc : p.pc <;> simp only [hpc] at this hc <;> first | omega | exact hc trivial
  · intro c hc1
    obtain ⟨k, hk⟩ := List.mem_iff_getElem?.1 hc1
    by_contra hc
    have := State.nC_ge hk rfl
    cases hpc : c.pc <;> simp only [hpc] at this hc <;> first | omega | exact hc trivial

theorem remaining_le_of_reachable {s : State} (h : Reachable codeConfig s) :
    s.remaining codeConfig ≤ 344 := by
  induction h with
  | init => exact le_of_eq remaining_init_codeConfig
  | step w hr hs ih =>
    have := step_remaining (inv_of_reachable hr) hs
    omega

/-- Under the invariant, a state in which every thread has returned is one in which every
thread has completed all its iterations. -/
theorem Inv.completed_of_allDone {cfg : Config} {s : State} (hi : Inv cfg s)
    (hd : s.allDone) : s.completed cfg := by
  refine ⟨fun p hp => ⟨hd.1 p hp, (hi.log.pinv p hp).i_done (hd.1 p hp)⟩,
    fun c hc => ⟨hd.2 c hc, (hi.log.cinv c hc).i_done (hd.2 c hc)⟩, ?_, hi.log.clen,
    hi.produced_length_of_done hd.1, hi.consumed_length_of_done hd.2⟩
  rw [← hi.log.pids, List.length_map]

/-- In the compiled configuration a reachable state in which no worker can move is one in
which all workers have completed all iterations. -/
theorem stuck_completed {s : State} (h : Reachable codeConfig s)
    (hstuck : ∀ w, step codeConfig w s = none) : s.completed codeConfig :=
  (inv_of_reachable h).completed_of_allDone (stuck_allDone h hstuck)

/-- From every reachable state of the compiled configuration some schedule runs to a state in
which all workers have completed all iterations. -/
theorem exists_run_to_completed :
    ∀ (n : Nat) (s : State), Reachable codeConfig s → s.remaining codeConfig = n →
      ∃ sched s1, run codeConfig sched s = some s1 ∧ s1.completed codeConfig
  | n, s, h, hn => by
    by_cases hst : ∀ w, step codeConfig w s = none
    · exact ⟨[], s, rfl, stuck_completed h hst⟩
    · simp only [not_forall] at hst
      obtain ⟨w, hw⟩ := hst
      obtain ⟨s2, hs2⟩ := Option.ne_none_iff_exists'.1 hw
      have hdec := step_remaining (inv_of_reachable h) hs2
      obtain ⟨sched, s1, hr, hd⟩ :=
        exists_run_to_completed (s2.remaining codeConfig) s2 (Reachable.step w h hs2) rfl
      exact ⟨w :: sched, s1, by simp only [run, hs2, hr], hd⟩
termination_by n => n
decreasing_by omega

/-- C8: deadlock-freedom under balanced load (2 x 10 produces, 2 x 10 consumes,
`TABLE_SIZE = 2`). Every reachable state either is final, meaning that all four threads have
run all ten iterations of their loop (`i = 10`), have returned, and all 20 items have been
placed and retrieved, or has a worker with an enabled statement. Every execution that
continues from it lowers the number of statements still to execute by exactly one per
transition, so it has at most 344 transitions, and when it cannot be continued it has reached
such a final state. And some execution from it does reach such a final state. -/
theorem deadlock_free_balanced (s : State) (h : Reachable codeConfig s) :
    (s.completed codeConfig ∨ ∃ w s1, step codeConfig w s = some s1)
      ∧ (∀ sched s1, run codeConfig sched s = some s1 →
          sched.length + s1.remaining codeConfig = s.remaining codeConfig
          ∧ sched.length ≤ 344
          ∧ ((∀ w, step codeConfig w s1 = none) →
              s1.completed codeConfig ∧ s1.remaining codeConfig = 0))
      ∧ (∃ sched s1, run codeConfig sched s = some s1 ∧ s1.completed codeConfig) := by
  refine ⟨?_, ?_, exists_run_to_completed _ s h rfl⟩
  · by_cases hst : ∀ w, step codeConfig w s = none
    · exact Or.inl (stuck_completed h hst)
    · simp only [not_forall] at hst
      obtain ⟨w, hw⟩ := hst
      obtain ⟨s2, hs2⟩ := Option.ne_none_iff_exists'.1 hw
      exact Or.inr ⟨w, s2, hs2⟩
  · intro sched s1 hr
    have h1 := run_remaining sched s s1 h hr
    have h2 := remaining_le_of_reachable h
    refine ⟨h1, by omega, fun hst => ?_⟩
    have hd := stuck_allDone (reachable_of_run sched s s1 h hr) hst
    refine ⟨stuck_completed (reachable_of_run sched s s1 h hr) hst, ?_⟩
    unfold State.remaining
    rw [tally_eq_zero (fun p hp => by simp only [Producer.remaining, hd.1 p hp]),
      tally_eq_zero (fun c hc => by simp only [Consumer.remaining, hd.2 c hc])]

/-- Witness for C8 at the initial state, where 344 statements are still to execute. -/
theorem deadlock_free_balanced_witness :
    (initState codeConfig).remaining codeConfig = 344
      ∧ ((initState codeConfig).completed codeConfig
        ∨ ∃ w s1, step codeConfig w (initState codeConfig) = some s1)
      ∧ (∀ sched s1, run codeConfig sched (initState codeConfig) = some s1 →
          sched.length + s1.remaining codeConfig = (initState codeConfig).remaining codeConfig
          ∧ sched.length ≤ 344
          ∧ ((∀ w, step codeConfig w s1 = none) →
              s1.completed codeConfig ∧ s1.remaining codeConfig = 0))
      ∧ (∃ sched s1, run codeConfig sched (initState codeConfig) = some s1
          ∧ s1.completed codeConfig) :=
  ⟨by decide, deadlock_free_balanced (initState codeConfig) Reachable.init⟩

end ProducerConsumer
